import Mathlib

/-!
# Verification of the Elephant Coder indexing and impact engine

Shallow embedding of `elephant_coder/index_engine.py` and
`elephant_coder/state_store.py`: incremental Python indexing, a derived
file-level dependency graph, and impact analysis via multi-source BFS over
the reverse graph with distance-based confidence decay.

Conventions of the embedding:
* Python `dict`s keyed by file path become association lists
  (`List (String × _)`) with first-match lookup; insertion appends at the
  end, mirroring Python dict insertion order.
* Python `float` values (mtimes, confidences, edge weights) become `ℚ`.
  The engine only ever compares these for equality, takes `max`/`min`, and
  rounds to 3 decimal places; no operation it performs on them is
  sensitive to binary floating point representation for the constants in
  play (0.25, 0.4, 0.7, 0.75, 0.85, 1.0 are the only literals).
* Library functions outside the repository (`hashlib.sha256`, `ast.parse`,
  the optional `grilly` world model) are parameters of the embedding: the
  theorems quantify over them, and witnesses instantiate them concretely.
* Filesystem state is passed explicitly as a list of files (project-root
  relative POSIX path, text content, mtime).
-/

namespace ElephantCoder

/-! ### String primitives

Python string operations, implemented over the character list.  Each is
semantically the operation the engine uses (`str.replace` with a
one-character pattern, `str.strip`, `str.split(sep)`, suffix test,
the codepoint-lexicographic comparison used by `sorted`); they are
structurally recursive so that concrete witnesses evaluate inside the
kernel, where the byte-position loops of the core `String` functions do
not reduce. -/

/-- Codepoint-lexicographic order on strings is decidable by walking the
character lists (`s₁ < s₂ ↔ s₁.toList < s₂.toList`); the library instance
walks byte positions instead, which the kernel cannot reduce. -/
instance (a b : String) : Decidable (a < b) :=
  decidable_of_iff (a.toList < b.toList) String.lt_iff_toList_lt.symm

instance (a b : String) : Decidable (a ≤ b) :=
  decidable_of_iff (a.toList ≤ b.toList) String.le_iff_toList_le.symm

/-- `s.replace(a, b)` for one-character `a` and `b`. -/
def strReplaceChar (s : String) (a b : Char) : String :=
  ⟨s.data.map (fun ch => if ch = a then b else ch)⟩

/-- `s.strip()` (whitespace from both ends). -/
def strStrip (s : String) : String :=
  ⟨((s.data.dropWhile Char.isWhitespace).reverse.dropWhile
      Char.isWhitespace).reverse⟩

/-- `s.endswith(suffix)` / `rglob` suffix test. -/
def strEndsWith (s suffix : String) : Bool :=
  decide (s.data.drop (s.data.length - suffix.data.length) = suffix.data)

/-- `s.startswith(pre)`. -/
def strStartsWith (s pre : String) : Bool :=
  decide (s.data.take pre.data.length = pre.data)

/-- Drop the first `n` characters (used to strip the `file:` key marker). -/
def strDrop (s : String) (n : Nat) : String := ⟨s.data.drop n⟩

/-- `s.split(sep)` for a one-character separator, with Python semantics:
an empty string yields `[""]` and adjacent separators yield empty
fields. -/
def splitOnChar (sep : Char) (s : String) : List String :=
  go s.data []
where
  go : List Char → List Char → List String
    | [], acc => [⟨acc.reverse⟩]
    | c :: rest, acc =>
        if c = sep then ⟨acc.reverse⟩ :: go rest [] else go rest (c :: acc)

/-- First-match association-list lookup, the model of Python dict lookup
(`d.get(k)` / `k in d`). -/
def alookup {β : Type} (l : List (String × β)) (k : String) : Option β :=
  match l with
  | [] => none
  | (k2, v) :: rest => if k2 = k then some v else alookup rest k

/-- Python dict assignment `d[k] = v`: update in place if the key exists,
append at the end otherwise. -/
def aupsert {β : Type} (l : List (String × β)) (k : String) (v : β) :
    List (String × β) :=
  match l with
  | [] => [(k, v)]
  | (k2, v2) :: rest =>
      if k2 = k then (k2, v) :: rest else (k2, v2) :: aupsert rest k v

@[simp] theorem alookup_nil {β : Type} (k : String) :
    alookup ([] : List (String × β)) k = none := rfl

@[simp] theorem alookup_cons {β : Type} (k2 : String) (v : β) (rest : List (String × β))
    (k : String) :
    alookup ((k2, v) :: rest) k = if k2 = k then some v else alookup rest k := rfl

theorem alookup_append {β : Type} (l1 l2 : List (String × β)) (k : String) :
    alookup (l1 ++ l2) k =
      match alookup l1 k with
      | some v => some v
      | none => alookup l2 k := by
  induction l1 with
  | nil => simp
  | cons hd tl ih =>
      obtain ⟨k2, v⟩ := hd
      by_cases h : k2 = k <;> simp [alookup, h, ih]

theorem alookup_aupsert_self {β : Type} (l : List (String × β)) (k : String) (v : β) :
    alookup (aupsert l k v) k = some v := by
  induction l with
  | nil => simp [aupsert, alookup]
  | cons hd tl ih =>
      obtain ⟨k2, v2⟩ := hd
      by_cases h : k2 = k <;> simp [aupsert, alookup, h, ih]

theorem alookup_aupsert_ne {β : Type} (l : List (String × β)) (k k2 : String) (v : β)
    (h : k ≠ k2) : alookup (aupsert l k v) k2 = alookup l k2 := by
  induction l with
  | nil => simp [aupsert, alookup, h]
  | cons hd tl ih =>
      obtain ⟨k3, v3⟩ := hd
      by_cases h3 : k3 = k
      · subst h3
        simp [aupsert, alookup, h]
      · simp [aupsert, alookup, h3, ih]

theorem aupsert_keys_subset {β : Type} (l : List (String × β)) (k k2 : String) (v : β)
    (h : (alookup (aupsert l k v) k2).isSome) :
    (alookup l k2).isSome ∨ k2 = k := by
  by_cases hk : k2 = k
  · right; exact hk
  · left
    rwa [alookup_aupsert_ne l k k2 v (fun he => hk he.symm)] at h

/-- Insert a string into a sorted duplicate-free list, keeping it sorted and
duplicate-free.  `sortedDedup` below uses it to model Python
`sorted(set(xs))`. -/
def insertSorted (x : String) : List String → List String
  | [] => [x]
  | y :: ys =>
      if x = y then y :: ys
      else if x < y then x :: y :: ys
      else y :: insertSorted x ys

/-- Model of Python `sorted(set(xs))` for strings: the sorted list of the
distinct elements of `xs` (string order is codepoint-lexicographic in both
languages). -/
def sortedDedup (xs : List String) : List String :=
  xs.foldl (fun acc x => insertSorted x acc) []

theorem mem_insertSorted (x y : String) (l : List String) :
    y ∈ insertSorted x l ↔ y = x ∨ y ∈ l := by
  induction l with
  | nil => simp [insertSorted]
  | cons hd tl ih =>
      show y ∈ (if x = hd then hd :: tl
          else if x < hd then x :: hd :: tl else hd :: insertSorted x tl) ↔ _
      by_cases h1 : x = hd
      · rw [if_pos h1]
        subst h1
        simp only [List.mem_cons]
        tauto
      · rw [if_neg h1]
        by_cases h2 : x < hd
        · rw [if_pos h2]
          simp only [List.mem_cons]
        · rw [if_neg h2]
          simp only [List.mem_cons, ih]
          tauto

theorem sorted_insertSorted (x : String) (l : List String)
    (h : l.Sorted (· < ·)) : (insertSorted x l).Sorted (· < ·) := by
  induction l with
  | nil => exact List.sorted_singleton x
  | cons hd tl ih =>
      rw [List.sorted_cons] at h
      obtain ⟨hhd, htl⟩ := h
      show List.Sorted (· < ·) (if x = hd then hd :: tl
          else if x < hd then x :: hd :: tl else hd :: insertSorted x tl)
      by_cases h1 : x = hd
      · rw [if_pos h1]
        exact List.sorted_cons.mpr ⟨hhd, htl⟩
      · rw [if_neg h1]
        by_cases h2 : x < hd
        · rw [if_pos h2]
          refine List.sorted_cons.mpr ⟨?_, List.sorted_cons.mpr ⟨hhd, htl⟩⟩
          intro b hb
          rcases List.mem_cons.mp hb with hb | hb
          · exact hb ▸ h2
          · exact lt_trans h2 (hhd b hb)
        · have hgt : hd < x := by
            rcases lt_trichotomy x hd with h | h | h
            · exact absurd h h2
            · exact absurd h h1
            · exact h
          rw [if_neg h2]
          refine List.sorted_cons.mpr ⟨?_, ih htl⟩
          intro b hb
          rcases (mem_insertSorted x b tl).mp hb with hb | hb
          · exact hb ▸ hgt
          · exact hhd b hb

theorem sortedDedup_sorted_aux (xs acc : List String)
    (h : acc.Sorted (· < ·)) :
    (xs.foldl (fun acc x => insertSorted x acc) acc).Sorted (· < ·) := by
  induction xs generalizing acc with
  | nil => simpa using h
  | cons hd tl ih => exact ih _ (sorted_insertSorted hd acc h)

theorem sortedDedup_sorted (xs : List String) :
    (sortedDedup xs).Sorted (· < ·) :=
  sortedDedup_sorted_aux xs [] (by simp)

theorem mem_sortedDedup_aux (xs acc : List String) (y : String) :
    y ∈ xs.foldl (fun acc x => insertSorted x acc) acc ↔ y ∈ acc ∨ y ∈ xs := by
  induction xs generalizing acc with
  | nil => simp
  | cons hd tl ih =>
      simp only [List.foldl_cons, ih, mem_insertSorted, List.mem_cons]
      tauto

theorem mem_sortedDedup (xs : List String) (y : String) :
    y ∈ sortedDedup xs ↔ y ∈ xs := by
  simp [sortedDedup, mem_sortedDedup_aux]

/-! ## Rounding

`impact_for_files` uses Python `round(x, 3)`.  Python rounds half to even
(banker's rounding); we model it exactly on rationals.  (For the values the
engine feeds it — `0.75 / d` and oracle strengths — the decimal rounding of
the rational value coincides with Python's rounding of the corresponding
double for every value relevant to the claims.) -/

/-- Round a rational to the nearest integer, halves to even
(the semantics of Python builtin `round`). -/
def roundHalfEven (q : ℚ) : ℤ :=
  if q - ⌊q⌋ < 1/2 then ⌊q⌋
  else if 1/2 < q - ⌊q⌋ then ⌊q⌋ + 1
  else if ⌊q⌋ % 2 = 0 then ⌊q⌋ else ⌊q⌋ + 1

/-- Python `round(q, 3)`. -/
def round3 (q : ℚ) : ℚ := (roundHalfEven (1000 * q) : ℚ) / 1000

theorem roundHalfEven_le_of_le (q : ℚ) (n : ℤ) (h : q ≤ (n : ℚ)) :
    roundHalfEven q ≤ n := by
  have hf : ⌊q⌋ ≤ n := by
    calc ⌊q⌋ ≤ ⌊(n : ℚ)⌋ := Int.floor_le_floor h
      _ = n := Int.floor_intCast n
  unfold roundHalfEven
  by_cases h1 : q - ⌊q⌋ < 1/2
  · rw [if_pos h1]
    exact hf
  · have hlt : ⌊q⌋ < n := by
      rcases lt_or_eq_of_le hf with h2 | h2
      · exact h2
      · exfalso
        have hq0 : q - (⌊q⌋ : ℚ) ≤ 0 := by
          rw [h2]
          linarith
        linarith [not_lt.mp h1]
    rw [if_neg h1]
    by_cases h2 : 1/2 < q - ⌊q⌋
    · rw [if_pos h2]
      omega
    · rw [if_neg h2]
      by_cases h3 : ⌊q⌋ % 2 = 0
      · rw [if_pos h3]
        exact hf
      · rw [if_neg h3]
        omega

/-! ## Distance classification

The `impact_for_files` scoring loop (index_engine.py): distance 0 is
`changed` with confidence 1.0, distance 1 is `direct` with confidence 0.85,
and larger distances are `transitive` with confidence
`max(0.25, round(0.75 / dist, 3))`. -/

/-- `impact_kind` as a function of distance. -/
def impactKindFor (d : Nat) : String :=
  if d = 0 then "changed" else if d = 1 then "direct" else "transitive"

/-- Base (pure-graph) confidence as a function of distance. -/
def confidenceFor (d : Nat) : ℚ :=
  if d = 0 then 1
  else if d = 1 then 0.85
  else max 0.25 (round3 (0.75 / (d : ℚ)))

theorem confidenceFor_two : confidenceFor 2 = 0.375 := by
  have h1 : (0.75 : ℚ) / (2 : ℚ) = 3/8 := by norm_num
  have h2 : (1000 : ℚ) * (3/8) = 375 := by norm_num
  have h3 : roundHalfEven 375 = 375 := by
    unfold roundHalfEven
    norm_num
  rw [confidenceFor]
  norm_num [round3, h1, h2, h3]

theorem confidenceFor_ge_three (d : Nat) (h : 3 ≤ d) : confidenceFor d = 0.25 := by
  have hd0 : d ≠ 0 := by omega
  have hd1 : d ≠ 1 := by omega
  have hq : (0 : ℚ) < (d : ℚ) := by
    have : (0 : ℚ) < (3 : ℚ) := by norm_num
    have h3 : (3 : ℚ) ≤ (d : ℚ) := by exact_mod_cast h
    linarith
  have h3 : (3 : ℚ) ≤ (d : ℚ) := by exact_mod_cast h
  have hle : (1000 : ℚ) * (0.75 / (d : ℚ)) ≤ ((250 : ℤ) : ℚ) := by
    have e : (1000 : ℚ) * (0.75 / (d : ℚ)) = 750 / (d : ℚ) := by ring
    rw [e, div_le_iff₀ hq]
    push_cast
    linarith
  have hr : roundHalfEven ((1000 : ℚ) * (0.75 / (d : ℚ))) ≤ 250 :=
    roundHalfEven_le_of_le _ 250 hle
  have hround : round3 (0.75 / (d : ℚ)) ≤ 0.25 := by
    unfold round3
    rw [div_le_iff₀ (by norm_num : (0 : ℚ) < 1000)]
    calc ((roundHalfEven ((1000 : ℚ) * (0.75 / (d : ℚ)))) : ℚ) ≤ (250 : ℚ) := by
          exact_mod_cast hr
      _ = 0.25 * 1000 := by norm_num
  rw [confidenceFor, if_neg hd0, if_neg hd1]
  exact max_eq_left hround

theorem confidenceFor_antitone (d1 d2 : Nat) (h1 : 1 ≤ d1) (h12 : d1 ≤ d2) :
    confidenceFor d2 ≤ confidenceFor d1 := by
  rcases Nat.lt_or_ge d1 2 with hd1 | hd1
  · have : d1 = 1 := by omega
    subst this
    rw [show confidenceFor 1 = 0.85 from rfl]
    rcases Nat.lt_or_ge d2 2 with hd2 | hd2
    · have : d2 = 1 := by omega
      subst this
      norm_num [confidenceFor]
    · rcases Nat.lt_or_ge d2 3 with hd3 | hd3
      · have : d2 = 2 := by omega
        subst this
        rw [confidenceFor_two]
        norm_num
      · rw [confidenceFor_ge_three d2 hd3]
        norm_num
  · rcases Nat.lt_or_ge d1 3 with hd13 | hd13
    · have : d1 = 2 := by omega
      subst this
      rw [confidenceFor_two]
      rcases Nat.lt_or_ge d2 3 with hd2 | hd2
      · have : d2 = 2 := by omega
        subst this
        rw [confidenceFor_two]
      · rw [confidenceFor_ge_three d2 hd2]
        norm_num
    · rw [confidenceFor_ge_three d1 hd13, confidenceFor_ge_three d2 (le_trans hd13 h12)]

/-! ## Python AST model and the source parser

`_parse_python_file` parses one file with the standard-library `ast`
module, then extracts facts with `_extract_imports` and `_Collector`.
We model the fragment of the Python AST those extractors inspect.  A
`PyNode` is one AST node: `importNames` is `ast.Import` (carrying
`alias.name` for each alias), `importFrom` is `ast.ImportFrom` (carrying
`node.module`, which is `none` for relative imports, and the alias names,
where `"*"` models a wildcard), the definition nodes carry their body
statements, and `callNode` is an `ast.Call` whose extracted callee name is
the given string (`""` when `node.func` is neither an `ast.Name` nor an
`ast.Attribute`, exactly as `visit_Call` computes it).  `other` covers every
remaining node kind, carrying its child nodes.  Display-only data no claim
concerns (line numbers, argument annotations and the rendered `signature`
strings, produced by the library `ast.unparse`) is not modelled. -/

inductive PyNode where
  | importNames (names : List String)
  | importFrom (module : Option String) (names : List String)
  | funcDef (name : String) (body : List PyNode)
  | asyncFuncDef (name : String) (body : List PyNode)
  | classDef (name : String) (body : List PyNode)
  | callNode (callee : String) (children : List PyNode)
  | other (children : List PyNode)
deriving Repr

mutual

/-- `ast.walk` from a single node: the node itself and, recursively, every
node beneath it.  (`ast.walk` enumerates breadth-first; this enumeration is
depth-first, which reaches exactly the same set of nodes — the one consumer,
`_extract_imports`, sorts a set, so only membership matters.) -/
def walkNode : PyNode → List PyNode
  | .importNames ns => [.importNames ns]
  | .importFrom m ns => [.importFrom m ns]
  | .funcDef nm body => .funcDef nm body :: walkList body
  | .asyncFuncDef nm body => .asyncFuncDef nm body :: walkList body
  | .classDef nm body => .classDef nm body :: walkList body
  | .callNode c ch => .callNode c ch :: walkList ch
  | .other ch => .other ch :: walkList ch

/-- `ast.walk` over a list of sibling nodes. -/
def walkList : List PyNode → List PyNode
  | [] => []
  | n :: rest => walkNode n ++ walkList rest

end

/-- The module tokens one AST node contributes in `_extract_imports`:
`ast.Import` contributes each truthy `alias.name`; `ast.ImportFrom` with
`module = node.module or ""` contributes `module` for a `*` alias (when
`module` is non-empty), `module.alias` for a named alias when `module` is
non-empty, and the bare alias name otherwise; no other node contributes. -/
def importTokensOf : PyNode → List String
  | .importNames ns => ns.filter (fun a => a ≠ "")
  | .importFrom m ns =>
      let module := m.getD ""
      ns.foldr (fun a acc =>
        if a = "*" then (if module ≠ "" then module :: acc else acc)
        else if module ≠ "" then (module ++ "." ++ a) :: acc
        else a :: acc) []
  | _ => []

/-- `_extract_imports(tree)`: walk the whole tree with `ast.walk`, add each
node's module tokens to a set, and return `sorted(out)`. -/
def extractImports (tree : List PyNode) : List String :=
  sortedDedup (((walkList tree).map importTokensOf).flatten)

/-- A `symbols` entry produced by `_Collector` (sans the display-only
line numbers and signature). -/
structure SymbolFact where
  symbol_name : String
  qualname : String
  kind : String
deriving Repr, DecidableEq

/-- A `calls` entry produced by `_Collector.visit_Call`. -/
structure CallFact where
  caller_qualname : String
  callee_name : String
deriving Repr, DecidableEq

/-- `_Collector._qualname`: dot-join the scope stack and the name
(just the name when the stack is empty). -/
def qualnameIn (scope : List String) (name : String) : String :=
  if scope = [] then name else String.intercalate "." (scope ++ [name])

/-- The caller recorded by `visit_Call`: the dot-joined scope stack, or the
literal `<module>` when the stack is empty. -/
def callerOf (scope : List String) : String :=
  if scope = [] then "<module>" else String.intercalate "." scope

mutual

/-- `_Collector` on one node, carrying the scope stack explicitly: class and
function definitions record a symbol and push their name onto the scope for
their body; call nodes with a non-empty extracted callee record a call
fact; every node's children are visited (`generic_visit`). -/
def collectNode (scope : List String) : PyNode → List SymbolFact × List CallFact
  | .importNames _ => ([], [])
  | .importFrom _ _ => ([], [])
  | .funcDef nm body =>
      let r := collectList (scope ++ [nm]) body
      (⟨nm, qualnameIn scope nm, "function"⟩ :: r.1, r.2)
  | .asyncFuncDef nm body =>
      let r := collectList (scope ++ [nm]) body
      (⟨nm, qualnameIn scope nm, "async_function"⟩ :: r.1, r.2)
  | .classDef nm body =>
      let r := collectList (scope ++ [nm]) body
      (⟨nm, qualnameIn scope nm, "class"⟩ :: r.1, r.2)
  | .callNode callee ch =>
      let r := collectList scope ch
      (r.1, (if callee ≠ "" then [⟨callerOf scope, callee⟩] else []) ++ r.2)
  | .other ch => collectList scope ch

/-- `_Collector` over sibling nodes in order. -/
def collectList (scope : List String) : List PyNode → List SymbolFact × List CallFact
  | [] => ([], [])
  | n :: rest =>
      let r1 := collectNode scope n
      let r2 := collectList scope rest
      (r1.1 ++ r2.1, r1.2 ++ r2.2)

end

/-- The outcome of `ast.parse(source)` — library code outside the
repository, so it is a parameter of the embedding: `Except.error e` models
`ast.parse` raising `SyntaxError` or `ValueError` whose `str()` is `e`, and
`Except.ok tree` models a successful parse of the module body. -/
abbrev AstParseFn := String → Except String (List PyNode)

/-- `_parse_python_file`: parse the source text; on a `SyntaxError` or
`ValueError` return empty fact lists and the exception message, otherwise
run `_Collector` and `_extract_imports` and return the facts with no
parse error.  (The `path.read_text` preceding the `try` block is modelled
by `source` being passed in, matching the spec contract
`parse(path, source_text)`.) -/
def parsePythonFile (astParse : AstParseFn) (source : String) :
    List SymbolFact × List String × List CallFact × Option String :=
  match astParse source with
  | .error e => ([], [], [], some e)
  | .ok tree =>
      let c := collectList [] tree
      (c.1, extractImports tree, c.2, none)

/-! ## Fact store (state_store.py)

The SQLite tables become lists of rows; table mutations become the exact
row-level effect of the corresponding SQL inside its transaction.  The
write-only `indexed_at` column (never read back: `get_indexed_file_meta`
does not select it and nothing else queries it) is not modelled. -/

/-- One `indexed_files` row as returned by `get_indexed_file_meta`. -/
structure FileMeta where
  file_hash : String
  mtime : ℚ
  parse_error : Option String
deriving Repr, DecidableEq

/-- One `symbols` row (sans the display-only line numbers / signature). -/
structure SymbolRow where
  file_path : String
  symbol_name : String
  qualname : String
  kind : String
deriving Repr, DecidableEq

/-- One `imports` row. -/
structure ImportRow where
  file_path : String
  module_name : String
deriving Repr, DecidableEq

/-- One `calls` row. -/
structure CallRow where
  file_path : String
  caller_qualname : String
  callee_name : String
deriving Repr, DecidableEq

/-- One `edges` row. -/
structure GraphEdge where
  src_file : String
  dst_file : String
  edge_type : String
  weight : ℚ
deriving Repr, DecidableEq

/-- The persistent state: the five tables of `StateStore`. -/
structure Store where
  files : List (String × FileMeta)
  symbols : List SymbolRow
  imports : List ImportRow
  calls : List CallRow
  edges : List GraphEdge
deriving Repr

/-- `StateStore.upsert_indexed_file` (INSERT .. ON CONFLICT(file_path)
DO UPDATE). -/
def upsertIndexedFile (s : Store) (file_path file_hash : String) (mtime : ℚ)
    (parse_error : Option String) : Store :=
  { s with files := aupsert s.files file_path ⟨file_hash, mtime, parse_error⟩ }

/-- `StateStore.delete_file`: drop the file's `indexed_files` row, its
symbol/import/call rows, and every edge having it as source or
destination. -/
def deleteFile (s : Store) (file_path : String) : Store :=
  { s with
    files := s.files.filter (fun kv => decide (kv.1 ≠ file_path)),
    symbols := s.symbols.filter (fun r => decide (r.file_path ≠ file_path)),
    imports := s.imports.filter (fun r => decide (r.file_path ≠ file_path)),
    calls := s.calls.filter (fun r => decide (r.file_path ≠ file_path)),
    edges := s.edges.filter
      (fun e => decide (e.src_file ≠ file_path ∧ e.dst_file ≠ file_path)) }

/-- `StateStore.replace_file_analysis`: delete the file's symbol/import/call
rows, then insert the new facts (owner column set to `file_path`). -/
def replaceFileAnalysis (s : Store) (file_path : String)
    (symbolFacts : List SymbolFact) (importNames : List String)
    (callFacts : List CallFact) : Store :=
  { s with
    symbols := s.symbols.filter (fun r => decide (r.file_path ≠ file_path)) ++
      symbolFacts.map (fun f => ⟨file_path, f.symbol_name, f.qualname, f.kind⟩),
    imports := s.imports.filter (fun r => decide (r.file_path ≠ file_path)) ++
      importNames.map (fun m => ⟨file_path, m⟩),
    calls := s.calls.filter (fun r => decide (r.file_path ≠ file_path)) ++
      callFacts.map (fun c => ⟨file_path, c.caller_qualname, c.callee_name⟩) }

/-- `StateStore.symbol_files_by_name()[name]` (with `set()` default): the
set of files defining `name`, as a deduplicated list.  Set iteration order
is immaterial: the one consumer pours the result into an edge set that is
then sorted. -/
def symbolFilesByName (symbols : List SymbolRow) (name : String) : List String :=
  ((symbols.filter (fun r => decide (r.symbol_name = name))).map
    (fun r => r.file_path)).dedup

/-- The `INSERT OR IGNORE` of `replace_edges` under
`UNIQUE(src_file, dst_file, edge_type)`: keep the first row per triple. -/
def insertIgnoreEdges (acc : List GraphEdge) : List GraphEdge → List GraphEdge
  | [] => acc
  | e :: rest =>
      if acc.any (fun e2 => e2.src_file == e.src_file &&
          e2.dst_file == e.dst_file && e2.edge_type == e.edge_type) then
        insertIgnoreEdges acc rest
      else insertIgnoreEdges (acc ++ [e]) rest

/-- `StateStore.replace_edges`: discard the whole `edges` table and insert
the given rows. -/
def replaceEdges (s : Store) (edges : List GraphEdge) : Store :=
  { s with edges := insertIgnoreEdges [] edges }

/-! ## Index engine: scanning, edge rebuild, refresh (index_engine.py)

The filesystem is passed explicitly: a snapshot of every file under the
project root as (project-relative POSIX path, text content, mtime).
`hashlib.sha256` is library code, modelled as the parameter `hashFn`. -/

/-- `_SKIP_DIRS`. -/
def skipDirs : List String :=
  [".elephant-coder", ".git", ".venv", "venv", "__pycache__", ".mypy_cache",
   ".pytest_cache", "node_modules", "dist", "build"]

/-- One on-disk file. -/
structure FsFile where
  path : String
  content : String
  mtime : ℚ
deriving Repr, DecidableEq

/-- `_iter_python_files`: every file matching `rglob("*.py")` none of whose
relative-path components is in `_SKIP_DIRS`, sorted. -/
def iterPythonFiles (fs : List FsFile) : List FsFile :=
  (fs.filter (fun f => strEndsWith f.path ".py" &&
      !((splitOnChar '/' f.path).any
        (fun part => skipDirs.contains part)))).insertionSort
    (fun a b => a.path ≤ b.path)

/-- `_resolve_import_to_file`: resolve a dotted module name to a
project-local file by joining the dot-separated parts with `/` and probing
`<path>.py` then `<path>/__init__.py` on disk; `disk` is the set of
existing files as project-relative paths. -/
def resolveImportToFile (disk : List String) (module_name : String) :
    Option String :=
  if module_name = "" then none
  else
    let parts := splitOnChar '.' module_name
    let candidate1 := String.intercalate "/" parts ++ ".py"
    let candidate2 := String.intercalate "/" parts ++ "/__init__.py"
    if candidate1 ∈ disk then some candidate1
    else if candidate2 ∈ disk then some candidate2
    else none

/-- Lexicographic order on edge rows, the order of Python
`sorted(set_of_4_tuples)`. -/
def edgeLe (a b : GraphEdge) : Prop :=
  a.src_file < b.src_file ∨ (a.src_file = b.src_file ∧
    (a.dst_file < b.dst_file ∨ (a.dst_file = b.dst_file ∧
      (a.edge_type < b.edge_type ∨ (a.edge_type = b.edge_type ∧
        a.weight ≤ b.weight)))))

instance : DecidableRel edgeLe := fun a b => by
  unfold edgeLe
  infer_instance

/-- `_rebuild_edges`: import edges (weight 1.0) from resolvable imports,
call edges (weight 0.7) from each call row to every file defining the
callee, self-edges dropped, collected as a set and sorted. -/
def rebuildEdges (disk : List String) (s : Store) : List GraphEdge :=
  let importEdges := s.imports.filterMap (fun row =>
    match resolveImportToFile disk row.module_name with
    | some dst =>
        if dst ≠ row.file_path then
          some ⟨row.file_path, dst, "import", 1⟩
        else none
    | none => none)
  let callEdges := ((s.calls.map (fun row =>
    ((symbolFilesByName s.symbols row.callee_name).filter
        (fun dst => decide (dst ≠ row.file_path))).map
      (fun dst => (⟨row.file_path, dst, "call", 0.7⟩ : GraphEdge)))).flatten)
  ((importEdges ++ callEdges).dedup).insertionSort edgeLe

/-- The counters `refresh_index` returns (the display-only totals
`symbols_total`, `edges_total`, `elapsed_ms` are not modelled; no claim
mentions them). -/
structure RefreshStats where
  files_scanned : Nat
  files_indexed : Nat
  files_skipped : Nat
  files_deleted : Nat
  parse_errors : Nat
deriving Repr, DecidableEq

/-- The skip test inside `refresh_index`: skip when a previous record
exists whose hash and mtime both match and whose `parse_error` is `None`
or `""`. -/
def skipCheck (prev : Option FileMeta) (file_hash : String) (mtime : ℚ) :
    Bool :=
  match prev with
  | none => false
  | some p =>
      decide (p.file_hash = file_hash) && decide (p.mtime = mtime) &&
        (decide (p.parse_error = none) || decide (p.parse_error = some ""))

/-- Spec §4.1 `should_reparse(path, previous_meta)`: the complement of the
skip test. -/
def shouldReparse (prev : Option FileMeta) (file_hash : String) (mtime : ℚ) :
    Bool :=
  !skipCheck prev file_hash mtime

/-- The per-file body of the `refresh_index` loop: skip, or parse and
persist via `upsert_indexed_file` + `replace_file_analysis`. -/
def processFile (astParse : AstParseFn) (hashFn : String → String)
    (previous : List (String × FileMeta)) (acc : Store × RefreshStats)
    (f : FsFile) : Store × RefreshStats :=
  let file_hash := hashFn f.content
  let prev := alookup previous f.path
  if skipCheck prev file_hash f.mtime then
    (acc.1, { acc.2 with files_skipped := acc.2.files_skipped + 1 })
  else
    let r := parsePythonFile astParse f.content
    let s2 := upsertIndexedFile acc.1 f.path file_hash f.mtime r.2.2.2
    let s3 := replaceFileAnalysis s2 f.path r.1 r.2.1 r.2.2.1
    (s3, { acc.2 with
      files_indexed := acc.2.files_indexed + 1,
      parse_errors := acc.2.parse_errors +
        (if r.2.2.2.isSome then 1 else 0) })

/-- The deletion pass of `refresh_index`:
`sorted(set(previous).difference(current_map))`, the previously indexed
paths no longer among the enumerated files. -/
def refreshDeletions (fs : List FsFile) (s0 : Store) : List String :=
  sortedDedup ((s0.files.map Prod.fst).filter
    (fun p => decide (p ∉ (iterPythonFiles fs).map (fun f => f.path))))

/-- The first two phases of `refresh_index`: apply `delete_file` to every
disappeared path, then run the skip-or-reparse loop over the enumerated
files against the pre-deletion metadata snapshot (`previous` is read
before any deletion, exactly as the Python reads
`get_indexed_file_meta()` first). -/
def refreshProcessed (astParse : AstParseFn) (hashFn : String → String)
    (fs : List FsFile) (s0 : Store) : Store × RefreshStats :=
  (iterPythonFiles fs).foldl (processFile astParse hashFn s0.files)
    ((refreshDeletions fs s0).foldl deleteFile s0,
      ⟨(iterPythonFiles fs).length, 0, 0, (refreshDeletions fs s0).length, 0⟩)

/-- `refresh_index`: snapshot previous metadata, delete disappeared files,
skip-or-reparse each current file, then rebuild and replace the whole edge
set. -/
def refreshIndex (astParse : AstParseFn) (hashFn : String → String)
    (fs : List FsFile) (s0 : Store) : Store × RefreshStats :=
  let step := refreshProcessed astParse hashFn fs s0
  (replaceEdges step.1 (rebuildEdges (fs.map (fun f => f.path)) step.1),
    step.2)

/-! ## Impact analyzer: reverse adjacency and multi-source BFS -/

/-- Step 2 of `impact_for_files`: the reverse adjacency map.  For every
edge `src -> dst`, `src` is appended to `dst`'s reverse-neighbor list
(`reverse.setdefault(dst, []).append(...)`; the BFS destructures only the
neighbor name, so the accompanying edge type and weight are not carried). -/
def buildReverse (edges : List GraphEdge) : List (String × List String) :=
  edges.foldl (fun acc e =>
    aupsert acc e.dst_file ((alookup acc e.dst_file).getD [] ++ [e.src_file])) []

/-- All names appearing in some reverse-neighbor list: the universe of
nodes the BFS can ever enqueue beyond its seeds. -/
def adjNames (reverse : List (String × List String)) : List String :=
  (reverse.map Prod.snd).flatten

/-- Number of universe nodes not yet in the distance map: the potential of
the BFS termination measure. -/
def unvisitedCount (reverse : List (String × List String))
    (dist : List (String × Nat)) : Nat :=
  (adjNames reverse).countP (fun x => (alookup dist x).isNone)

theorem alookup_append_some {β : Type} (l1 l2 : List (String × β)) (k : String)
    (v : β) (h : alookup l1 k = some v) : alookup (l1 ++ l2) k = some v := by
  rw [alookup_append, h]

theorem alookup_append_isNone {β : Type} (l1 l2 : List (String × β)) (k : String)
    (h : (alookup (l1 ++ l2) k).isNone) : (alookup l1 k).isNone := by
  cases hc : alookup l1 k with
  | none => simp
  | some v =>
      rw [alookup_append_some l1 l2 k v hc] at h
      simp at h

theorem mem_adjNames (reverse : List (String × List String)) (cur d : String)
    (l : List String) (h : alookup reverse cur = some l) (hd : d ∈ l) :
    d ∈ adjNames reverse := by
  induction reverse with
  | nil => simp [alookup] at h
  | cons hd2 tl ih =>
      obtain ⟨k, v⟩ := hd2
      have hadj : adjNames ((k, v) :: tl) = v ++ adjNames tl := by
        simp [adjNames]
      rw [hadj]
      rw [alookup_cons] at h
      by_cases hk : k = cur
      · rw [if_pos hk] at h
        cases h
        exact List.mem_append_left _ hd
      · rw [if_neg hk] at h
        exact List.mem_append_right _ (ih h)

theorem countP_unvisited_append_le (univ : List String)
    (dist ext : List (String × Nat)) :
    univ.countP (fun x => (alookup (dist ++ ext) x).isNone) ≤
      univ.countP (fun x => (alookup dist x).isNone) := by
  induction univ with
  | nil => simp
  | cons hd tl ih =>
      rw [List.countP_cons, List.countP_cons]
      have hpt : (if ((alookup (dist ++ ext) hd).isNone : Bool) then 1 else 0) ≤
          (if ((alookup dist hd).isNone : Bool) then 1 else 0) := by
        by_cases hc : ((alookup (dist ++ ext) hd).isNone : Bool) = true
        · rw [if_pos hc, if_pos (alookup_append_isNone dist ext hd (by simpa using hc))]
        · rw [if_neg hc]
          omega
      omega

theorem countP_unvisited_append_lt (univ : List String)
    (dist : List (String × Nat)) (dep : String) (v : Nat) (hmem : dep ∈ univ)
    (hnone : alookup dist dep = none) :
    univ.countP (fun x => (alookup (dist ++ [(dep, v)]) x).isNone) + 1 ≤
      univ.countP (fun x => (alookup dist x).isNone) := by
  induction univ with
  | nil => cases hmem
  | cons hd tl ih =>
      rw [List.countP_cons, List.countP_cons]
      by_cases hhd : hd = dep
      · subst hhd
        have h1 : alookup (dist ++ [(hd, v)]) hd = some v := by
          rw [alookup_append, hnone]
          simp [alookup]
        have h2 :
            tl.countP (fun x => (alookup (dist ++ [(hd, v)]) x).isNone) ≤
              tl.countP (fun x => (alookup dist x).isNone) :=
          countP_unvisited_append_le tl dist [(hd, v)]
        simp only [h1, hnone]
        simp
        omega
      · have heq : alookup (dist ++ [(dep, v)]) hd = alookup dist hd := by
          rw [alookup_append]
          cases hc : alookup dist hd with
          | some w => rfl
          | none =>
              simp only [alookup]
              rw [if_neg (fun he => hhd he.symm)]
        have hmem2 : dep ∈ tl := by
          rcases List.mem_cons.mp hmem with h | h
          · exact absurd h.symm hhd
          · exact h
        have := ih hmem2
        simp only [heq]
        omega

/-- The inner loop of the BFS (`for dep, _, _ in reverse.get(cur, [])`):
record each not-yet-seen neighbor at `curDist + 1` and enqueue it,
returning the extended distance map and the newly enqueued nodes. -/
def visitDeps (curDist : Nat) (deps : List String)
    (dist : List (String × Nat)) : List (String × Nat) × List String :=
  match deps with
  | [] => (dist, [])
  | dep :: rest =>
      if (alookup dist dep).isSome then visitDeps curDist rest dist
      else
        let r := visitDeps curDist rest (dist ++ [(dep, curDist + 1)])
        (r.1, dep :: r.2)

theorem visitDeps_lookup_some (c : Nat) (deps : List String)
    (dist : List (String × Nat)) (x : String) (v : Nat)
    (h : alookup dist x = some v) :
    alookup (visitDeps c deps dist).1 x = some v := by
  induction deps generalizing dist with
  | nil => simpa [visitDeps] using h
  | cons dep rest ih =>
      by_cases hseen : (alookup dist dep).isSome
      · rw [visitDeps, if_pos hseen]
        exact ih dist h
      · rw [visitDeps, if_neg hseen]
        exact ih (dist ++ [(dep, c + 1)]) (alookup_append_some _ _ _ _ h)

theorem visitDeps_count (univ : List String) (c : Nat) (deps : List String)
    (dist : List (String × Nat)) (hsub : ∀ d ∈ deps, d ∈ univ) :
    univ.countP (fun x => (alookup (visitDeps c deps dist).1 x).isNone) +
      (visitDeps c deps dist).2.length ≤
    univ.countP (fun x => (alookup dist x).isNone) := by
  induction deps generalizing dist with
  | nil => simp [visitDeps]
  | cons dep rest ih =>
      by_cases hseen : (alookup dist dep).isSome
      · rw [visitDeps, if_pos hseen]
        exact ih dist (fun d hd => hsub d (List.mem_cons_of_mem dep hd))
      · rw [visitDeps, if_neg hseen]
        have hnone : alookup dist dep = none := by
          cases hc : alookup dist dep with
          | none => rfl
          | some w => rw [hc] at hseen; simp at hseen
        have hstep := countP_unvisited_append_lt univ dist dep (c + 1)
          (hsub dep (List.mem_cons_self dep rest)) hnone
        have hrec := ih (dist ++ [(dep, c + 1)])
          (fun d hd => hsub d (List.mem_cons_of_mem dep hd))
        simp only [List.length_cons]
        omega

theorem getD_adj_subset (reverse : List (String × List String)) (cur : String) :
    ∀ d ∈ (alookup reverse cur).getD [], d ∈ adjNames reverse := by
  intro d hd
  cases hc : alookup reverse cur with
  | none => rw [hc] at hd; simp at hd
  | some l =>
      rw [hc] at hd
      exact mem_adjNames reverse cur d l hc hd

theorem bfs_measure_lt (reverse : List (String × List String)) (cur : String)
    (rest : List String) (dist : List (String × Nat)) (curDist : Nat) :
    2 * unvisitedCount reverse
        (visitDeps curDist ((alookup reverse cur).getD []) dist).1 +
      (rest ++ (visitDeps curDist ((alookup reverse cur).getD []) dist).2).length <
    2 * unvisitedCount reverse dist + (cur :: rest).length := by
  have hcount := visitDeps_count (adjNames reverse) curDist
    ((alookup reverse cur).getD []) dist (getD_adj_subset reverse cur)
  simp only [unvisitedCount] at *
  simp only [List.length_append, List.length_cons]
  omega

/-- The BFS loop of `impact_for_files` step 3 (`while frontier:`): pop the
front node; when its distance is below `max_depth`, record and enqueue
each unseen reverse-neighbor at distance + 1.  (The frontier always holds
keys of the distance map — seeds are inserted with it, and every other
node is enqueued exactly when inserted — so the `getD 0` defaulting of the
lookup mirrors Python's direct `distance[cur]` indexing, which never
faults.) -/
def bfsLoop (reverse : List (String × List String)) (maxDepth : Nat)
    (dist : List (String × Nat)) (frontier : List String) :
    List (String × Nat) :=
  match frontier with
  | [] => dist
  | cur :: rest =>
      let curDist := (alookup dist cur).getD 0
      if maxDepth ≤ curDist then bfsLoop reverse maxDepth dist rest
      else
        let r := visitDeps curDist ((alookup reverse cur).getD []) dist
        bfsLoop reverse maxDepth r.1 (rest ++ r.2)
termination_by 2 * unvisitedCount reverse dist + frontier.length
decreasing_by
  · simp only [List.length_cons]
    omega
  · apply bfs_measure_lt

/-- The same BFS loop with an explicit iteration budget, structurally
recursive so that the kernel can evaluate it on concrete inputs
(well-founded recursion does not reduce definitionally).  With a budget of
at least the `bfsLoop` termination measure the two agree
(`bfsLoopFuel_eq` below): the budgeted branch is never taken. -/
def bfsLoopFuel (reverse : List (String × List String)) (maxDepth : Nat) :
    Nat → List (String × Nat) → List String → List (String × Nat)
  | _, dist, [] => dist
  | 0, dist, _ :: _ => dist
  | fuel + 1, dist, cur :: rest =>
      let curDist := (alookup dist cur).getD 0
      if maxDepth ≤ curDist then bfsLoopFuel reverse maxDepth fuel dist rest
      else
        let r := visitDeps curDist ((alookup reverse cur).getD []) dist
        bfsLoopFuel reverse maxDepth fuel r.1 (rest ++ r.2)

/-- Steps 1–3 of `impact_for_files` over an already-built reverse map: seed
every changed file at distance 0, enqueue it, and run the BFS to
completion (the budget equals the loop's termination measure, so it is
never exhausted — `bfsDistances_eq_loop`). -/
def bfsDistances (reverse : List (String × List String)) (maxDepth : Nat)
    (changed : List String) : List (String × Nat) :=
  bfsLoopFuel reverse maxDepth
    (2 * unvisitedCount reverse (changed.map (fun c => (c, 0))) +
      changed.length)
    (changed.map (fun c => (c, 0))) changed

/-! ## Impact analyzer: normalization, oracle merge, classification -/

/-- Step 1 of `impact_for_files`: keep input tokens that, after
backslash-to-slash replacement and whitespace stripping, name an indexed
file; deduplicate and sort (`sorted(set(normalized))`).  The
absolute-path branch — resolving an input that `Path.is_absolute()`
accepts against the project root — concerns the host filesystem and does
not fire for project-relative inputs, over which the claims quantify. -/
def normalizeChanged (indexedFiles : List String)
    (changed_files : List String) : List String :=
  sortedDedup (changed_files.filterMap (fun item =>
    let norm := strStrip (strReplaceChar item '\\' '/')
    if norm ∈ indexedFiles then some norm else none))

/-- The oracle interface `predict_consequence`, keyed by
`"file:" ++ path`. -/
abbrev OracleFn := String → List (String × ℚ)

/-- `_build_cognitive_world`, reduced to what the analyzer consumes: the
optional world model and the `error` field of its summary.  Importing and
initializing `grilly.experimental.cognitive` is external I/O, modelled by
the parameter: `Except.error msg` stands for the `import` or the
`WorldModel` constructor raising with message `msg` (both caught and
recorded); populating the model with facts afterwards does not affect
availability. -/
def buildCognitiveWorld (worldModelEnabled : Bool)
    (oracle : Except String OracleFn) : Option OracleFn × Option String :=
  if !worldModelEnabled then (none, some "disabled by config")
  else
    match oracle with
    | .error msg => (none, some ("cognitive import failed: " ++ msg))
    | .ok w => (some w, none)

/-- The mutable state of the prediction-merge loop (step 5): the distance
map being augmented, the `predicted_set`, and `predicted_strength`. -/
structure PredState where
  distance : List (String × Nat)
  predictedSet : List String
  predictedStrength : List (String × ℚ)
deriving Repr

/-- One `(effect, strength)` consequence: kept when the effect key has the
`file:` prefix and the stripped path is a known indexed file; the file
joins `predicted_set`, its strength folds in with `max` (base 0.0), and
its distance is forced to 1 when absent or greater than 1. -/
def applyConsequence (indexedFiles : List String) (st : PredState)
    (c : String × ℚ) : PredState :=
  if strStartsWith c.1 "file:" then
    let predicted := strDrop c.1 5
    if predicted ∈ indexedFiles then
      let strength1 := max c.2 ((alookup st.predictedStrength predicted).getD 0)
      let pset :=
        if predicted ∈ st.predictedSet then st.predictedSet
        else st.predictedSet ++ [predicted]
      let dist2 :=
        match alookup st.distance predicted with
        | none => aupsert st.distance predicted 1
        | some d => if 1 < d then aupsert st.distance predicted 1 else st.distance
      ⟨dist2, pset, aupsert st.predictedStrength predicted strength1⟩
    else st
  else st

/-- Step 5 of `impact_for_files`: when the world model is present, fold
`predict_consequence("file:" ++ fp)` over every changed file. -/
def applyPredictions (indexedFiles : List String) (world : Option OracleFn)
    (changed : List String) (dist : List (String × Nat)) : PredState :=
  match world with
  | none => ⟨dist, [], []⟩
  | some w =>
      changed.foldl (fun st fp =>
        (w ("file:" ++ fp)).foldl (applyConsequence indexedFiles) st)
        ⟨dist, [], []⟩

/-- One element of the `impacted` list. -/
structure ImpactEntry where
  file_path : String
  distance : Nat
  impact_kind : String
  confidence : ℚ
  impact_source : String
deriving Repr, DecidableEq

/-- The scoring of one `(file_path, dist)` item in the final loop of
`impact_for_files`: kind and base confidence from the distance, then the
source chain (`changed` at distance 0; `graph+world_model` when reached by
both; `world_model` with confidence floored at the rounded predicted
strength when reached only by prediction; the final `elif` arm — predicted
and statically reached — is unreachable but translated as written). -/
def classifyItem (staticDistance : List (String × Nat))
    (predictedSet : List String) (predictedStrength : List (String × ℚ))
    (item : String × Nat) : ImpactEntry :=
  let fp := item.1
  let dist := item.2
  let kind := impactKindFor dist
  let confidence := confidenceFor dist
  if dist = 0 then ⟨fp, dist, kind, confidence, "changed"⟩
  else if (alookup staticDistance fp).isSome ∧ fp ∈ predictedSet then
    ⟨fp, dist, kind, confidence, "graph+world_model"⟩
  else if fp ∈ predictedSet ∧ (alookup staticDistance fp).isNone then
    ⟨fp, dist, kind,
      max confidence (round3 ((alookup predictedStrength fp).getD 0.4)),
      "world_model"⟩
  else if fp ∈ predictedSet then
    ⟨fp, dist, kind,
      max confidence (round3 ((alookup predictedStrength fp).getD confidence)),
      "graph"⟩
  else ⟨fp, dist, kind, confidence, "graph"⟩

/-- The sort key of the final ordering: `(distance, path)`. -/
def itemLe (a b : String × Nat) : Prop :=
  a.2 < b.2 ∨ (a.2 = b.2 ∧ a.1 ≤ b.1)

instance : DecidableRel itemLe := fun a b => by
  unfold itemLe
  infer_instance

/-- The result of `impact_for_files` (the world-model summary reduced to
its `error` field, the piece the claims concern). -/
structure ImpactReport where
  changed_files : List String
  impacted : List ImpactEntry
  direct_count : Nat
  transitive_count : Nat
  world_model_error : Option String
  world_predicted_files : List String
  max_depth : Nat
deriving Repr

/-- `impact_for_files(changed_files, max_depth)`: normalize the inputs
against the indexed files, BFS the reverse edge graph, merge oracle
predictions (best-effort), classify every reached file, and sort by
`(distance, path)`. -/
def impactForFiles (oracle : Except String OracleFn)
    (worldModelEnabled : Bool) (s : Store) (changed_files : List String)
    (maxDepth : Nat) : ImpactReport :=
  let indexedFiles := s.files.map Prod.fst
  let changed := normalizeChanged indexedFiles changed_files
  let reverse := buildReverse s.edges
  let staticDistance := bfsDistances reverse maxDepth changed
  let world := buildCognitiveWorld worldModelEnabled oracle
  let ps := applyPredictions indexedFiles world.1 changed staticDistance
  let items := ps.distance.insertionSort itemLe
  let impacted :=
    items.map (classifyItem staticDistance ps.predictedSet ps.predictedStrength)
  { changed_files := changed,
    impacted := impacted,
    direct_count :=
      (impacted.filter (fun e => decide (e.impact_kind = "direct"))).length,
    transitive_count :=
      (impacted.filter (fun e => decide (e.impact_kind = "transitive"))).length,
    world_model_error := world.2,
    world_predicted_files := sortedDedup ps.predictedSet,
    max_depth := maxDepth }

/-! ## Claim C3: the re-parse decision -/

/-- C3: during `refresh_index` a file is re-parsed if and only if there is
no previous `IndexedFile` record, or the newly computed content hash
differs, or the mtime differs, or the stored `parse_error` is non-empty
(in particular, a file whose last parse failed is re-parsed even when its
hash and mtime are unchanged); and the refresh loop counts a file as
indexed exactly when this decision says to re-parse, else skips it with
the store untouched. -/
theorem refresh_reparse_iff (prev : Option FileMeta) (h : String) (m : ℚ) :
    (shouldReparse prev h m = true ↔
      prev = none ∨ ∃ p, prev = some p ∧
        (p.file_hash ≠ h ∨ p.mtime ≠ m ∨
          (p.parse_error ≠ none ∧ p.parse_error ≠ some ""))) ∧
    (∀ p e, prev = some p → p.parse_error = some e → e ≠ "" →
      shouldReparse prev p.file_hash p.mtime = true) ∧
    (∀ (astParse : AstParseFn) (hashFn : String → String)
        (previous : List (String × FileMeta)) (acc : Store × RefreshStats)
        (f : FsFile),
      (processFile astParse hashFn previous acc f).2.files_indexed =
        acc.2.files_indexed +
          (if shouldReparse (alookup previous f.path) (hashFn f.content) f.mtime
            then 1 else 0) ∧
      (shouldReparse (alookup previous f.path) (hashFn f.content) f.mtime = false →
        (processFile astParse hashFn previous acc f).1 = acc.1)) := by
  refine ⟨?_, ?_, ?_⟩
  · cases prev with
    | none => simp [shouldReparse, skipCheck]
    | some p =>
        simp only [shouldReparse, skipCheck, Bool.not_eq_true']
        constructor
        · intro hfalse
          right
          refine ⟨p, rfl, ?_⟩
          by_cases h1 : p.file_hash = h
          · by_cases h2 : p.mtime = m
            · right; right
              simp [h1, h2] at hfalse
              tauto
            · right; left; exact h2
          · left; exact h1
        · rintro (hnone | ⟨p2, hp2, hcase⟩)
          · exact absurd hnone (by simp)
          · cases hp2
            rcases hcase with h1 | h2 | h3
            · simp [h1]
            · simp [h2]
            · simp [h3.1, h3.2]
  · intro p e hp he hne
    cases hp
    simp [shouldReparse, skipCheck, he, hne]
  · intro astParse hashFn previous acc f
    constructor
    · by_cases hskip :
          skipCheck (alookup previous f.path) (hashFn f.content) f.mtime = true
      · simp [processFile, hskip, shouldReparse]
      · rw [Bool.not_eq_true] at hskip
        simp [processFile, hskip, shouldReparse]
    · intro hfalse
      have hskip : skipCheck (alookup previous f.path) (hashFn f.content) f.mtime
          = true := by
        simpa [shouldReparse] using hfalse
      simp [processFile, hskip]

theorem refresh_reparse_iff_witness :
    shouldReparse (some ⟨"h1", 1, some "invalid syntax"⟩) "h1" 1 = true :=
  (refresh_reparse_iff (some ⟨"h1", 1, some "invalid syntax"⟩) "h1" 1).2.1
    ⟨"h1", 1, some "invalid syntax"⟩ "invalid syntax" rfl rfl (by decide)

/-! ## Claim C8: the parser never throws past its boundary -/

/-- C8: for every parse outcome, `_parse_python_file` returns a value —
on a syntax error, empty symbol/import/call lists together with the
exception message as a non-empty `parse_error`; on a successful parse, the
collected facts with `parse_error = None`.  (The hypothesis `hmsg` records
the CPython fact that `str()` of a `SyntaxError`/`ValueError` raised by
`ast.parse` is never empty — it always carries at least the error text and
location.) -/
theorem parse_error_boundary (astParse : AstParseFn) (source : String)
    (hmsg : ∀ e, astParse source = Except.error e → e ≠ "") :
    (∀ e, astParse source = Except.error e →
      parsePythonFile astParse source = ([], [], [], some e) ∧ e ≠ "") ∧
    (∀ tree, astParse source = Except.ok tree →
      parsePythonFile astParse source =
        ((collectList [] tree).1, extractImports tree,
          (collectList [] tree).2, none)) := by
  constructor
  · intro e he
    refine ⟨?_, hmsg e he⟩
    simp [parsePythonFile, he]
  · intro tree htree
    simp [parsePythonFile, htree]

theorem parse_error_boundary_witness :
    parsePythonFile (fun _ => Except.error "invalid syntax (x.py, line 1)")
        "def (" = ([], [], [], some "invalid syntax (x.py, line 1)") ∧
      "invalid syntax (x.py, line 1)" ≠ "" :=
  (parse_error_boundary (fun _ => Except.error "invalid syntax (x.py, line 1)")
      "def (" (fun e he => by cases he; decide)).1
    "invalid syntax (x.py, line 1)" rfl

/-! ## Claim C2: first-visit BFS -/

theorem bfsLoop_nil (reverse : List (String × List String)) (maxD : Nat)
    (dist : List (String × Nat)) : bfsLoop reverse maxD dist [] = dist := by
  rw [bfsLoop]

theorem bfsLoop_cons (reverse : List (String × List String)) (maxD : Nat)
    (dist : List (String × Nat)) (cur : String) (rest : List String) :
    bfsLoop reverse maxD dist (cur :: rest) =
      if maxD ≤ (alookup dist cur).getD 0 then bfsLoop reverse maxD dist rest
      else
        bfsLoop reverse maxD
          (visitDeps ((alookup dist cur).getD 0)
            ((alookup reverse cur).getD []) dist).1
          (rest ++ (visitDeps ((alookup dist cur).getD 0)
            ((alookup reverse cur).getD []) dist).2) := by
  rw [bfsLoop]

/-- With a budget at least the termination measure of `bfsLoop`, the
budgeted loop is the loop. -/
theorem bfsLoopFuel_eq (reverse : List (String × List String)) (maxD : Nat)
    (dist : List (String × Nat)) (frontier : List String) :
    ∀ fuel, 2 * unvisitedCount reverse dist + frontier.length ≤ fuel →
      bfsLoopFuel reverse maxD fuel dist frontier =
        bfsLoop reverse maxD dist frontier := by
  induction dist, frontier using bfsLoop.induct reverse maxD with
  | case1 dist =>
      intro fuel _
      rw [bfsLoop_nil]
      cases fuel <;> rfl
  | case2 dist cur rest cd hle ih =>
      intro fuel hf
      have hle2 : maxD ≤ (alookup dist cur).getD 0 := hle
      cases fuel with
      | zero =>
          exfalso
          simp only [List.length_cons] at hf
          omega
      | succ f =>
          show (if maxD ≤ (alookup dist cur).getD 0 then
              bfsLoopFuel reverse maxD f dist rest
            else
              bfsLoopFuel reverse maxD f
                (visitDeps ((alookup dist cur).getD 0)
                  ((alookup reverse cur).getD []) dist).1
                (rest ++ (visitDeps ((alookup dist cur).getD 0)
                  ((alookup reverse cur).getD []) dist).2)) = _
          rw [if_pos hle2, bfsLoop_cons, if_pos hle2]
          apply ih
          simp only [List.length_cons] at hf
          omega
  | case3 dist cur rest cd hle r ih =>
      intro fuel hf
      have hle2 : ¬ maxD ≤ (alookup dist cur).getD 0 := hle
      cases fuel with
      | zero =>
          exfalso
          simp only [List.length_cons] at hf
          omega
      | succ f =>
          show (if maxD ≤ (alookup dist cur).getD 0 then
              bfsLoopFuel reverse maxD f dist rest
            else
              bfsLoopFuel reverse maxD f
                (visitDeps ((alookup dist cur).getD 0)
                  ((alookup reverse cur).getD []) dist).1
                (rest ++ (visitDeps ((alookup dist cur).getD 0)
                  ((alookup reverse cur).getD []) dist).2)) = _
          rw [if_neg hle2, bfsLoop_cons, if_neg hle2]
          have hgoal : 2 * unvisitedCount reverse
                (visitDeps ((alookup dist cur).getD 0)
                  ((alookup reverse cur).getD []) dist).1 +
              (rest ++ (visitDeps ((alookup dist cur).getD 0)
                ((alookup reverse cur).getD []) dist).2).length ≤ f := by
            have hm := bfs_measure_lt reverse cur rest dist
              ((alookup dist cur).getD 0)
            simp only [List.length_cons] at hf hm
            omega
          exact ih f hgoal

theorem bfsDistances_eq_loop (reverse : List (String × List String))
    (maxD : Nat) (changed : List String) :
    bfsDistances reverse maxD changed =
      bfsLoop reverse maxD (changed.map (fun c => (c, 0))) changed := by
  apply bfsLoopFuel_eq
  exact Nat.le_refl _

/-- A node's distance is recorded only on first visit and never changes
afterwards: every binding present when the loop resumes survives to the
final map. -/
theorem bfsLoop_lookup_mono (reverse : List (String × List String)) (maxD : Nat)
    (dist : List (String × Nat)) (frontier : List String) :
    ∀ x v, alookup dist x = some v →
      alookup (bfsLoop reverse maxD dist frontier) x = some v := by
  induction dist, frontier using bfsLoop.induct reverse maxD with
  | case1 dist =>
      intro x v h
      rw [bfsLoop_nil]
      exact h
  | case2 dist cur rest cd hle ih =>
      intro x v h
      have hle2 : maxD ≤ (alookup dist cur).getD 0 := hle
      rw [bfsLoop_cons, if_pos hle2]
      exact ih x v h
  | case3 dist cur rest cd hle r ih =>
      intro x v h
      have hle2 : ¬ maxD ≤ (alookup dist cur).getD 0 := hle
      rw [bfsLoop_cons, if_neg hle2]
      exact ih x v (visitDeps_lookup_some _ _ _ _ _ h)

theorem alookup_append_cases {β : Type} (l1 l2 : List (String × β)) (k : String)
    (v : β) (h : alookup (l1 ++ l2) k = some v) :
    alookup l1 k = some v ∨ alookup l2 k = some v := by
  rw [alookup_append] at h
  cases hc : alookup l1 k with
  | none =>
      rw [hc] at h
      right
      exact h
  | some w =>
      rw [hc] at h
      left
      exact h

/-- Everything `visitDeps` writes is a neighbor from `deps` recorded at
`curDist + 1`; existing bindings pass through unchanged. -/
theorem visitDeps_lookup_charact (c : Nat) (deps : List String)
    (dist : List (String × Nat)) (x : String) (v : Nat)
    (h : alookup (visitDeps c deps dist).1 x = some v) :
    alookup dist x = some v ∨ (v = c + 1 ∧ x ∈ deps) := by
  induction deps generalizing dist with
  | nil => left; simpa [visitDeps] using h
  | cons dep rest ih =>
      by_cases hseen : (alookup dist dep).isSome
      · rw [visitDeps, if_pos hseen] at h
        rcases ih dist h with h2 | h2
        · left; exact h2
        · right; exact ⟨h2.1, List.mem_cons_of_mem dep h2.2⟩
      · rw [visitDeps, if_neg hseen] at h
        rcases ih (dist ++ [(dep, c + 1)]) h with h2 | h2
        · rcases alookup_append_cases dist [(dep, c + 1)] x v h2 with h3 | h3
          · left; exact h3
          · right
            rw [alookup_cons] at h3
            by_cases hx : dep = x
            · rw [if_pos hx] at h3
              cases h3
              exact ⟨rfl, hx ▸ List.mem_cons_self dep rest⟩
            · rw [if_neg hx] at h3
              cases h3
        · right; exact ⟨h2.1, List.mem_cons_of_mem dep h2.2⟩

/-- Every node `visitDeps` enqueues is a key of the map it returns. -/
theorem visitDeps_enqueued_isSome (c : Nat) (deps : List String)
    (dist : List (String × Nat)) :
    ∀ x ∈ (visitDeps c deps dist).2, (alookup (visitDeps c deps dist).1 x).isSome := by
  induction deps generalizing dist with
  | nil => simp [visitDeps]
  | cons dep rest ih =>
      intro x hx
      by_cases hseen : (alookup dist dep).isSome
      · rw [visitDeps, if_pos hseen] at hx ⊢
        exact ih dist x hx
      · rw [visitDeps, if_neg hseen] at hx ⊢
        rcases List.mem_cons.mp hx with hx1 | hx1
        · subst hx1
          have hmem : alookup (dist ++ [(x, c + 1)]) x = some (c + 1) := by
            rw [alookup_append]
            cases hc : alookup dist x with
            | none => simp [alookup]
            | some w => rw [hc] at hseen; simp at hseen
          rw [visitDeps_lookup_some c rest _ x (c + 1) hmem]
          rfl
        · exact ih (dist ++ [(dep, c + 1)]) x hx1

/-- Bound preservation: when every recorded distance is at most
`maxD`, the loop keeps it so — neighbors are pushed only from nodes whose
distance is strictly below `maxD`, at that distance plus one. -/
theorem bfsLoop_bounded (reverse : List (String × List String)) (maxD : Nat)
    (dist : List (String × Nat)) (frontier : List String) :
    (∀ x v, alookup dist x = some v → v ≤ maxD) →
    ∀ x v, alookup (bfsLoop reverse maxD dist frontier) x = some v → v ≤ maxD := by
  induction dist, frontier using bfsLoop.induct reverse maxD with
  | case1 dist =>
      intro hinv x v h
      rw [bfsLoop_nil] at h
      exact hinv x v h
  | case2 dist cur rest cd hle ih =>
      intro hinv x v h
      have hle2 : maxD ≤ (alookup dist cur).getD 0 := hle
      rw [bfsLoop_cons, if_pos hle2] at h
      exact ih hinv x v h
  | case3 dist cur rest cd hle r ih =>
      intro hinv x v h
      have hle2 : ¬ maxD ≤ (alookup dist cur).getD 0 := hle
      rw [bfsLoop_cons, if_neg hle2] at h
      refine ih ?_ x v h
      intro y w hw
      rcases visitDeps_lookup_charact _ _ _ _ _ hw with h2 | h2
      · exact hinv y w h2
      · obtain ⟨h3, _⟩ := h2
        have hcd : cd = (alookup dist cur).getD 0 := rfl
        have hle3 : ¬ maxD ≤ cd := hle
        omega

/-- The parent structure of the distance map: every binding is a seed at
distance 0 or one step past a recorded node below `maxD` along the reverse
adjacency. -/
def ParentInv (reverse : List (String × List String)) (maxD : Nat)
    (changed : List String) (dist : List (String × Nat)) : Prop :=
  ∀ k v, alookup dist k = some v →
    (k ∈ changed ∧ v = 0) ∨
    ∃ q dq, alookup dist q = some dq ∧ dq < maxD ∧ v = dq + 1 ∧
      k ∈ (alookup reverse q).getD []

theorem bfsLoop_parent (reverse : List (String × List String)) (maxD : Nat)
    (changed : List String) (dist : List (String × Nat)) (frontier : List String) :
    (∀ x ∈ frontier, (alookup dist x).isSome) →
    ParentInv reverse maxD changed dist →
    ParentInv reverse maxD changed (bfsLoop reverse maxD dist frontier) := by
  induction dist, frontier using bfsLoop.induct reverse maxD with
  | case1 dist =>
      intro _ hinv
      rw [bfsLoop_nil]
      exact hinv
  | case2 dist cur rest cd hle ih =>
      intro hfr hinv
      have hle2 : maxD ≤ (alookup dist cur).getD 0 := hle
      rw [bfsLoop_cons, if_pos hle2]
      exact ih (fun x hx => hfr x (List.mem_cons_of_mem cur hx)) hinv
  | case3 dist cur rest cd hle r ih =>
      intro hfr hinv
      have hle2 : ¬ maxD ≤ (alookup dist cur).getD 0 := hle
      rw [bfsLoop_cons, if_neg hle2]
      have hcur : alookup dist cur = some ((alookup dist cur).getD 0) := by
        cases hc : alookup dist cur with
        | none =>
            have hs := hfr cur (List.mem_cons_self cur rest)
            rw [hc] at hs
            cases hs
        | some w => rfl
      refine ih ?_ ?_
      · intro x hx
        rcases List.mem_append.mp hx with hx1 | hx1
        · have hs := hfr x (List.mem_cons_of_mem cur hx1)
          cases hc : alookup dist x with
          | none => rw [hc] at hs; cases hs
          | some w =>
              rw [visitDeps_lookup_some _ _ _ x w hc]
              rfl
        · exact visitDeps_enqueued_isSome _ _ _ x hx1
      · intro k v hk
        rcases visitDeps_lookup_charact _ _ _ _ _ hk with h2 | h2
        · rcases hinv k v h2 with h3 | ⟨q, dq, hq, hdq, hv, hadj⟩
          · exact Or.inl h3
          · exact Or.inr ⟨q, dq, visitDeps_lookup_some _ _ _ q dq hq, hdq, hv, hadj⟩
        · refine Or.inr ⟨cur, (alookup dist cur).getD 0,
            visitDeps_lookup_some _ _ _ cur _ hcur, by omega, ?_, h2.2⟩
          exact h2.1

theorem seed_lookup (changed : List String) (c : String) (h : c ∈ changed) :
    alookup (changed.map (fun c => (c, (0 : Nat)))) c = some 0 := by
  induction changed with
  | nil => cases h
  | cons hd tl ih =>
      by_cases hc : hd = c
      · simp [alookup, hc]
      · rcases List.mem_cons.mp h with h1 | h1
        · exact absurd h1.symm hc
        · simp only [List.map_cons, alookup_cons, if_neg hc]
          exact ih h1

theorem seed_charact (changed : List String) (k : String) (v : Nat)
    (h : alookup (changed.map (fun c => (c, (0 : Nat)))) k = some v) :
    k ∈ changed ∧ v = 0 := by
  induction changed with
  | nil => simp [alookup] at h
  | cons hd tl ih =>
      simp only [List.map_cons, alookup_cons] at h
      by_cases hc : hd = k
      · rw [if_pos hc] at h
        cases h
        exact ⟨hc ▸ List.mem_cons_self hd tl, rfl⟩
      · rw [if_neg hc] at h
        obtain ⟨h1, h2⟩ := ih h
        exact ⟨List.mem_cons_of_mem hd h1, h2⟩

/-- C2: in the graph-traversal stage of `impact_for_files`, (i) every
changed file is recorded at distance 0 and keeps it, (ii) a recorded
distance is never changed by further traversal (first visit wins, no
decrease), (iii) no recorded distance exceeds `max_depth`, and (iv) every
recorded node is either a seed at distance 0 or a reverse-neighbor of a
recorded node of distance `d < max_depth`, recorded at `d + 1`. -/
theorem impact_bfs_first_visit (reverse : List (String × List String))
    (maxD : Nat) (changed : List String) :
    (∀ c ∈ changed, alookup (bfsDistances reverse maxD changed) c = some 0) ∧
    (∀ (dist : List (String × Nat)) (frontier : List String) (x : String)
        (v : Nat), alookup dist x = some v →
      alookup (bfsLoop reverse maxD dist frontier) x = some v) ∧
    (∀ k v, alookup (bfsDistances reverse maxD changed) k = some v →
      v ≤ maxD) ∧
    ParentInv reverse maxD changed (bfsDistances reverse maxD changed) := by
  refine ⟨?_, ?_, ?_, ?_⟩
  · intro c hc
    rw [bfsDistances_eq_loop]
    exact bfsLoop_lookup_mono reverse maxD _ changed c 0 (seed_lookup changed c hc)
  · intro dist frontier x v h
    exact bfsLoop_lookup_mono reverse maxD dist frontier x v h
  · intro k v h
    rw [bfsDistances_eq_loop] at h
    refine bfsLoop_bounded reverse maxD _ changed ?_ k v h
    intro x w hw
    obtain ⟨_, h0⟩ := seed_charact changed x w hw
    omega
  · rw [bfsDistances_eq_loop]
    refine bfsLoop_parent reverse maxD changed _ changed ?_ ?_
    · intro x hx
      rw [seed_lookup changed x hx]
      rfl
    · intro k v hk
      exact Or.inl (seed_charact changed k v hk)

theorem impact_bfs_first_visit_witness :
    alookup (bfsDistances [("b.py", ["a.py", "c.py"])] 8 ["b.py"]) "b.py" =
      some 0 :=
  (impact_bfs_first_visit [("b.py", ["a.py", "c.py"])] 8 ["b.py"]).1 "b.py"
    (by decide)

/-! ## Claim C1: distance classification and confidence decay -/

/-- The static (pure-graph) distance map of one `impact_for_files` run. -/
def impactStaticDistance (s : Store) (changed_files : List String)
    (maxDepth : Nat) : List (String × Nat) :=
  bfsDistances (buildReverse s.edges) maxDepth
    (normalizeChanged (s.files.map Prod.fst) changed_files)

/-- The post-merge state (augmented distances, predicted set, predicted
strengths) of one `impact_for_files` run. -/
def impactPredState (oracle : Except String OracleFn) (enabled : Bool)
    (s : Store) (changed_files : List String) (maxDepth : Nat) : PredState :=
  applyPredictions (s.files.map Prod.fst)
    (buildCognitiveWorld enabled oracle).1
    (normalizeChanged (s.files.map Prod.fst) changed_files)
    (impactStaticDistance s changed_files maxDepth)

theorem impacted_eq (oracle : Except String OracleFn) (enabled : Bool)
    (s : Store) (changed_files : List String) (maxDepth : Nat) :
    (impactForFiles oracle enabled s changed_files maxDepth).impacted =
      ((impactPredState oracle enabled s changed_files maxDepth).distance.insertionSort
          itemLe).map
        (classifyItem (impactStaticDistance s changed_files maxDepth)
          (impactPredState oracle enabled s changed_files maxDepth).predictedSet
          (impactPredState oracle enabled s changed_files maxDepth).predictedStrength) :=
  rfl

theorem mem_impacted_iff (oracle : Except String OracleFn) (enabled : Bool)
    (s : Store) (changed_files : List String) (maxDepth : Nat)
    (e : ImpactEntry) :
    e ∈ (impactForFiles oracle enabled s changed_files maxDepth).impacted ↔
    ∃ item ∈ (impactPredState oracle enabled s changed_files maxDepth).distance,
      e = classifyItem (impactStaticDistance s changed_files maxDepth)
        (impactPredState oracle enabled s changed_files maxDepth).predictedSet
        (impactPredState oracle enabled s changed_files maxDepth).predictedStrength
        item := by
  rw [impacted_eq, List.mem_map]
  constructor
  · rintro ⟨item, hmem, heq⟩
    exact ⟨item,
      (List.perm_insertionSort itemLe _).mem_iff.mp hmem, heq.symm⟩
  · rintro ⟨item, hmem, heq⟩
    exact ⟨item,
      (List.perm_insertionSort itemLe _).mem_iff.mpr hmem, heq.symm⟩

theorem classifyItem_file_path (sd : List (String × Nat)) (pset : List String)
    (pstr : List (String × ℚ)) (fp : String) (d : Nat) :
    (classifyItem sd pset pstr (fp, d)).file_path = fp := by
  unfold classifyItem
  dsimp only
  split_ifs <;> rfl

theorem classifyItem_not_predicted (sd : List (String × Nat))
    (pset : List String) (pstr : List (String × ℚ)) (fp : String) (d : Nat)
    (h : fp ∉ pset) :
    classifyItem sd pset pstr (fp, d) =
      ⟨fp, d, impactKindFor d, confidenceFor d,
        if d = 0 then "changed" else "graph"⟩ := by
  by_cases hd : d = 0
  · simp [classifyItem, hd]
  · simp [classifyItem, hd, h]

/-- C1: every entry produced by graph traversal alone (its file absent
from the oracle's predicted set — in particular every entry when the
oracle is unavailable) is classified purely by distance: 0 ↦ `changed` at
confidence 1.0, 1 ↦ `direct` at 0.85, d ≥ 2 ↦ `transitive` at
`max(0.25, round(0.75/d, 3))`; consequently, within a fixed changed-file
set, confidence is non-increasing as distance grows beyond 1. -/
theorem impact_confidence_classification (oracle : Except String OracleFn)
    (enabled : Bool) (s : Store) (changed_files : List String)
    (maxDepth : Nat) :
    (∀ e ∈ (impactForFiles oracle enabled s changed_files maxDepth).impacted,
      e.file_path ∉
          (impactPredState oracle enabled s changed_files maxDepth).predictedSet →
        e.impact_kind = impactKindFor e.distance ∧
        e.confidence = confidenceFor e.distance ∧
        (e.distance = 0 → e.impact_kind = "changed" ∧ e.confidence = 1) ∧
        (e.distance = 1 → e.impact_kind = "direct" ∧ e.confidence = 0.85) ∧
        (2 ≤ e.distance → e.impact_kind = "transitive" ∧
          e.confidence = max 0.25 (round3 ((0.75 : ℚ) / (e.distance : ℚ))))) ∧
    (∀ e1 e2,
      e1 ∈ (impactForFiles oracle enabled s changed_files maxDepth).impacted →
      e2 ∈ (impactForFiles oracle enabled s changed_files maxDepth).impacted →
      e1.file_path ∉
        (impactPredState oracle enabled s changed_files maxDepth).predictedSet →
      e2.file_path ∉
        (impactPredState oracle enabled s changed_files maxDepth).predictedSet →
      1 ≤ e1.distance → e1.distance ≤ e2.distance →
      e2.confidence ≤ e1.confidence) := by
  have hbase : ∀ e ∈ (impactForFiles oracle enabled s changed_files maxDepth).impacted,
      e.file_path ∉
          (impactPredState oracle enabled s changed_files maxDepth).predictedSet →
        e.impact_kind = impactKindFor e.distance ∧
        e.confidence = confidenceFor e.distance := by
    intro e hmem hnp
    obtain ⟨item, _, heq⟩ :=
      (mem_impacted_iff oracle enabled s changed_files maxDepth e).mp hmem
    obtain ⟨fp, d⟩ := item
    have hfp : e.file_path = fp := by rw [heq, classifyItem_file_path]
    rw [heq, classifyItem_not_predicted _ _ _ fp d (hfp ▸ hnp)]
    exact ⟨rfl, rfl⟩
  constructor
  · intro e hmem hnp
    obtain ⟨hkind, hconf⟩ := hbase e hmem hnp
    refine ⟨hkind, hconf, ?_, ?_, ?_⟩
    · intro h0
      rw [hkind, hconf, h0]
      exact ⟨rfl, rfl⟩
    · intro h1
      rw [hkind, hconf, h1]
      exact ⟨rfl, rfl⟩
    · intro h2
      have hd0 : e.distance ≠ 0 := by omega
      have hd1 : e.distance ≠ 1 := by omega
      rw [hkind, hconf]
      exact ⟨by simp [impactKindFor, hd0, hd1],
        by simp [confidenceFor, hd0, hd1]⟩
  · intro e1 e2 h1 h2 hnp1 hnp2 hge hle
    obtain ⟨_, hconf1⟩ := hbase e1 h1 hnp1
    obtain ⟨_, hconf2⟩ := hbase e2 h2 hnp2
    rw [hconf1, hconf2]
    exact confidenceFor_antitone e1.distance e2.distance hge hle

/-- A small concrete store for witnesses: two indexed files and one import
edge `b.py -> a.py`. -/
def exStore : Store :=
  ⟨[("a.py", ⟨"h", 1, none⟩), ("b.py", ⟨"h", 1, none⟩)], [], [],
    [], [⟨"b.py", "a.py", "import", 1⟩]⟩

theorem impact_confidence_classification_witness :
    (⟨"b.py", 1, "direct", 0.85, "graph"⟩ : ImpactEntry).impact_kind =
        "direct" ∧
      (⟨"b.py", 1, "direct", 0.85, "graph"⟩ : ImpactEntry).confidence = 0.85 :=
  ((impact_confidence_classification (Except.error "absent") true exStore
      ["a.py"] 8).1 ⟨"b.py", 1, "direct", 0.85, "graph"⟩ (by
        rw [mem_impacted_iff]
        exact ⟨("b.py", 1), by decide, by rfl⟩)
      (by decide)).2.2.2.1 rfl

/-! ## Claim C9: import extraction -/

/-- The claim's reading of the import list — "one entry per distinct
module token imported **at module scope**": only the module's top-level
statements contribute tokens (no walk into function/class bodies). -/
def moduleScopeImportTokens (tree : List PyNode) : List String :=
  sortedDedup ((tree.map importTokensOf).flatten)

/-- The token contributed by a single alias of `from <module> import a`:
`module` for a wildcard (only when non-empty), `module.a` for a named
alias under a non-empty module, the bare alias name otherwise. -/
def ImportFromToken (module : String) (names : List String) (t : String) :
    Prop :=
  ∃ a ∈ names,
    (a = "*" ∧ module ≠ "" ∧ t = module) ∨
    (a ≠ "*" ∧ module ≠ "" ∧ t = module ++ "." ++ a) ∨
    (a ≠ "*" ∧ module = "" ∧ t = a)

/-- `t` is a module token of the file: some node anywhere in the tree (the
walk enters function and class bodies too) is an import statement
contributing `t` under the form mapping. -/
def IsImportToken (tree : List PyNode) (t : String) : Prop :=
  ∃ node ∈ walkList tree,
    (∃ names, node = PyNode.importNames names ∧ t ∈ names ∧ t ≠ "") ∨
    (∃ m names, node = PyNode.importFrom m names ∧
      ImportFromToken (m.getD "") names t)

theorem importFromToken_cons (module a : String) (rest : List String)
    (t : String) :
    ImportFromToken module (a :: rest) t ↔
      ((a = "*" ∧ module ≠ "" ∧ t = module) ∨
        (a ≠ "*" ∧ module ≠ "" ∧ t = module ++ "." ++ a) ∨
        (a ≠ "*" ∧ module = "" ∧ t = a)) ∨
      ImportFromToken module rest t := by
  simp only [ImportFromToken, List.mem_cons]
  constructor
  · rintro ⟨b, hb | hb, hcase⟩
    · subst hb
      exact Or.inl hcase
    · exact Or.inr ⟨b, hb, hcase⟩
  · rintro (hcase | ⟨b, hb, hcase⟩)
    · exact ⟨a, Or.inl rfl, hcase⟩
    · exact ⟨b, Or.inr hb, hcase⟩

theorem mem_importFrom_tokens (module : String) (ns : List String)
    (t : String) :
    t ∈ ns.foldr (fun a acc =>
        if a = "*" then (if module ≠ "" then module :: acc else acc)
        else if module ≠ "" then (module ++ "." ++ a) :: acc
        else a :: acc) [] ↔ ImportFromToken module ns t := by
  induction ns with
  | nil => simp [ImportFromToken]
  | cons a rest ih =>
      rw [List.foldr_cons, importFromToken_cons]
      by_cases ha : a = "*"
      · by_cases hm : module = ""
        · rw [if_pos ha, if_neg (fun h => h hm), ih]
          simp [ha, hm]
        · rw [if_pos ha, if_pos hm, List.mem_cons, ih]
          simp [ha, hm]
      · by_cases hm : module = ""
        · rw [if_neg ha, if_neg (fun h => h hm), List.mem_cons, ih]
          simp [ha, hm]
        · rw [if_neg ha, if_pos hm, List.mem_cons, ih]
          simp [ha, hm]

theorem mem_importTokensOf (node : PyNode) (t : String) :
    t ∈ importTokensOf node ↔
      (∃ names, node = PyNode.importNames names ∧ t ∈ names ∧ t ≠ "") ∨
      (∃ m names, node = PyNode.importFrom m names ∧
        ImportFromToken (m.getD "") names t) := by
  cases node with
  | importNames ns =>
      simp only [importTokensOf, List.mem_filter, decide_eq_true_eq,
        PyNode.importNames.injEq]
      constructor
      · rintro ⟨h1, h2⟩
        exact Or.inl ⟨ns, rfl, h1, h2⟩
      · rintro (⟨names, hn, h1, h2⟩ | ⟨m, names, hn, _⟩)
        · cases hn
          exact ⟨h1, h2⟩
        · cases hn
  | importFrom m ns =>
      rw [show importTokensOf (PyNode.importFrom m ns) =
          ns.foldr (fun a acc =>
            if a = "*" then (if m.getD "" ≠ "" then m.getD "" :: acc else acc)
            else if m.getD "" ≠ "" then (m.getD "" ++ "." ++ a) :: acc
            else a :: acc) [] from rfl]
      rw [mem_importFrom_tokens]
      constructor
      · intro h
        exact Or.inr ⟨m, ns, rfl, h⟩
      · rintro (⟨names, hn, _, _⟩ | ⟨m2, names, hn, h⟩)
        · cases hn
        · cases hn
          exact h
  | funcDef nm body => simp [importTokensOf]
  | asyncFuncDef nm body => simp [importTokensOf]
  | classDef nm body => simp [importTokensOf]
  | callNode c ch => simp [importTokensOf]
  | other ch => simp [importTokensOf]

theorem mem_extractImports (tree : List PyNode) (t : String) :
    t ∈ extractImports tree ↔ IsImportToken tree t := by
  rw [extractImports, mem_sortedDedup, List.mem_flatten, IsImportToken]
  constructor
  · rintro ⟨l, hl, ht⟩
    obtain ⟨node, hnode, rfl⟩ := List.mem_map.mp hl
    exact ⟨node, hnode, (mem_importTokensOf node t).mp ht⟩
  · rintro ⟨node, hnode, hcase⟩
    exact ⟨importTokensOf node, List.mem_map.mpr ⟨node, hnode, rfl⟩,
      (mem_importTokensOf node t).mpr hcase⟩

/-- C9 counterexample: a file whose only import sits inside a function
body.  `ast.walk` visits it, so the extracted list is `["os"]`, while the
module-scope tokens of the claim are empty — the claim as stated fails. -/
theorem extract_imports_module_scope_cex :
    extractImports [PyNode.funcDef "f" [PyNode.importNames ["os"]]] =
        ["os"] ∧
      moduleScopeImportTokens
          [PyNode.funcDef "f" [PyNode.importNames ["os"]]] = [] ∧
      extractImports [PyNode.funcDef "f" [PyNode.importNames ["os"]]] ≠
        moduleScopeImportTokens
          [PyNode.funcDef "f" [PyNode.importNames ["os"]]] :=
  ⟨rfl, rfl, by decide⟩

/-- C9 (amended): for every successfully parsed file, the extracted import
list is strictly sorted (hence duplicate-free) and contains a token if and
only if some import statement **anywhere in the file** (the walk enters
nested function and class bodies) contributes it: `import a.b` yields
`a.b`, `from a.b import c` yields `a.b.c`, and `from a.b import *` yields
`a.b`. -/
theorem extract_imports_characterization (tree : List PyNode) :
    (extractImports tree).Sorted (· < ·) ∧
      ∀ t, t ∈ extractImports tree ↔ IsImportToken tree t :=
  ⟨sortedDedup_sorted _, fun t => mem_extractImports tree t⟩

/-! ## Claim C10: refresh accounting -/

theorem processFile_counts (astParse : AstParseFn) (hashFn : String → String)
    (previous : List (String × FileMeta)) (acc : Store × RefreshStats)
    (f : FsFile) :
    (processFile astParse hashFn previous acc f).2.files_indexed +
        (processFile astParse hashFn previous acc f).2.files_skipped =
      acc.2.files_indexed + acc.2.files_skipped + 1 ∧
    (processFile astParse hashFn previous acc f).2.files_scanned =
      acc.2.files_scanned := by
  by_cases hskip :
      skipCheck (alookup previous f.path) (hashFn f.content) f.mtime = true
  · refine ⟨?_, ?_⟩ <;> simp [processFile, hskip]
    omega
  · rw [Bool.not_eq_true] at hskip
    refine ⟨?_, ?_⟩ <;> simp [processFile, hskip]
    omega

theorem foldProcess_counts (astParse : AstParseFn) (hashFn : String → String)
    (previous : List (String × FileMeta)) (files : List FsFile)
    (acc : Store × RefreshStats) :
    (files.foldl (processFile astParse hashFn previous) acc).2.files_indexed +
        (files.foldl (processFile astParse hashFn previous) acc).2.files_skipped =
      acc.2.files_indexed + acc.2.files_skipped + files.length ∧
    (files.foldl (processFile astParse hashFn previous) acc).2.files_scanned =
      acc.2.files_scanned := by
  induction files generalizing acc with
  | nil => exact ⟨rfl, rfl⟩
  | cons f rest ih =>
      rw [List.foldl_cons]
      obtain ⟨ha, hb⟩ := ih (processFile astParse hashFn previous acc f)
      obtain ⟨hc, hd⟩ := processFile_counts astParse hashFn previous acc f
      refine ⟨?_, hb.trans hd⟩
      rw [ha, hc]
      simp only [List.length_cons]
      omega

/-- C10: every `refresh_index` result satisfies
`files_indexed + files_skipped = files_scanned`, and `files_scanned` is the
number of candidate `.py` files enumerated under the project root after the
directory exclusions — every surviving file is counted exactly once as
skipped or re-indexed. -/
theorem refresh_counts (astParse : AstParseFn) (hashFn : String → String)
    (fs : List FsFile) (s0 : Store) :
    (refreshIndex astParse hashFn fs s0).2.files_indexed +
        (refreshIndex astParse hashFn fs s0).2.files_skipped =
      (refreshIndex astParse hashFn fs s0).2.files_scanned ∧
    (refreshIndex astParse hashFn fs s0).2.files_scanned =
      (iterPythonFiles fs).length := by
  obtain ⟨ha, hb⟩ := foldProcess_counts astParse hashFn s0.files
    (iterPythonFiles fs)
    ((refreshDeletions fs s0).foldl deleteFile s0,
      ⟨(iterPythonFiles fs).length, 0, 0, (refreshDeletions fs s0).length, 0⟩)
  dsimp only at ha hb
  rw [show (refreshIndex astParse hashFn fs s0).2 =
      ((iterPythonFiles fs).foldl (processFile astParse hashFn s0.files)
        ((refreshDeletions fs s0).foldl deleteFile s0,
          ⟨(iterPythonFiles fs).length, 0, 0,
            (refreshDeletions fs s0).length, 0⟩)).2 from rfl]
  exact ⟨by omega, by omega⟩

/-! ## Claims C5 and C6: deletion propagation and edge endpoints

Supporting lemmas about `delete_file`, the refresh loop's writes, and the
membership structure of `_rebuild_edges`. -/

theorem alookup_filter_ne {β : Type} (l : List (String × β)) (p q : String) :
    alookup (l.filter (fun kv => decide (kv.1 ≠ p))) q =
      if q = p then none else alookup l q := by
  induction l with
  | nil => simp [alookup]
  | cons hd tl ih =>
      obtain ⟨k, v⟩ := hd
      by_cases hk : k = p
      · by_cases hkq : k = q
        · have hqp : q = p := by rw [← hkq, hk]
          rw [List.filter_cons, if_neg (by simp [hk]), ih, if_pos hqp,
            if_pos hqp]
        · rw [List.filter_cons, if_neg (by simp [hk]), ih]
          by_cases hq2 : q = p
          · rw [if_pos hq2, if_pos hq2]
          · rw [if_neg hq2, if_neg hq2, alookup_cons, if_neg hkq]
      · by_cases hkq : k = q
        · have hqp : ¬ q = p := fun h => hk (hkq.trans h)
          rw [List.filter_cons, if_pos (by simp [hk]), alookup_cons,
            if_pos hkq, if_neg hqp, alookup_cons, if_pos hkq]
        · rw [List.filter_cons, if_pos (by simp [hk]), alookup_cons,
            if_neg hkq, ih]
          by_cases hq2 : q = p
          · rw [if_pos hq2, if_pos hq2]
          · rw [if_neg hq2, if_neg hq2, alookup_cons, if_neg hkq]

theorem mem_filter_row {α : Type} (l : List α) (f : α → String) (p : String)
    (r : α) :
    r ∈ l.filter (fun x => decide (f x ≠ p)) ↔ r ∈ l ∧ f r ≠ p := by
  rw [List.mem_filter]
  simp

/-- `delete_file` leaves no trace of the file and does not touch any other
file's rows. -/
theorem deleteFile_spec (s : Store) (p : String) :
    alookup (deleteFile s p).files p = none ∧
    (∀ r ∈ (deleteFile s p).symbols, r.file_path ≠ p) ∧
    (∀ r ∈ (deleteFile s p).imports, r.file_path ≠ p) ∧
    (∀ r ∈ (deleteFile s p).calls, r.file_path ≠ p) ∧
    (∀ e ∈ (deleteFile s p).edges, e.src_file ≠ p ∧ e.dst_file ≠ p) ∧
    (∀ q, q ≠ p → alookup (deleteFile s p).files q = alookup s.files q) ∧
    (∀ r : SymbolRow, r.file_path ≠ p →
      (r ∈ (deleteFile s p).symbols ↔ r ∈ s.symbols)) ∧
    (∀ r : ImportRow, r.file_path ≠ p →
      (r ∈ (deleteFile s p).imports ↔ r ∈ s.imports)) ∧
    (∀ r : CallRow, r.file_path ≠ p →
      (r ∈ (deleteFile s p).calls ↔ r ∈ s.calls)) ∧
    (∀ e : GraphEdge, e.src_file ≠ p → e.dst_file ≠ p →
      (e ∈ (deleteFile s p).edges ↔ e ∈ s.edges)) := by
  refine ⟨?_, ?_, ?_, ?_, ?_, ?_, ?_, ?_, ?_, ?_⟩
  · rw [show (deleteFile s p).files =
        s.files.filter (fun kv => decide (kv.1 ≠ p)) from rfl]
    rw [alookup_filter_ne]
    simp
  · intro r hr
    exact ((mem_filter_row s.symbols (fun r => r.file_path) p r).mp hr).2
  · intro r hr
    exact ((mem_filter_row s.imports (fun r => r.file_path) p r).mp hr).2
  · intro r hr
    exact ((mem_filter_row s.calls (fun r => r.file_path) p r).mp hr).2
  · intro e he
    have := (List.mem_filter.mp he).2
    simpa using this
  · intro q hq
    rw [show (deleteFile s p).files =
        s.files.filter (fun kv => decide (kv.1 ≠ p)) from rfl]
    rw [alookup_filter_ne, if_neg hq]
  · intro r hr
    exact ⟨fun h => ((mem_filter_row s.symbols (fun r => r.file_path) p r).mp h).1,
      fun h => (mem_filter_row s.symbols (fun r => r.file_path) p r).mpr ⟨h, hr⟩⟩
  · intro r hr
    exact ⟨fun h => ((mem_filter_row s.imports (fun r => r.file_path) p r).mp h).1,
      fun h => (mem_filter_row s.imports (fun r => r.file_path) p r).mpr ⟨h, hr⟩⟩
  · intro r hr
    exact ⟨fun h => ((mem_filter_row s.calls (fun r => r.file_path) p r).mp h).1,
      fun h => (mem_filter_row s.calls (fun r => r.file_path) p r).mpr ⟨h, hr⟩⟩
  · intro e hs hd
    rw [show (deleteFile s p).edges = s.edges.filter
        (fun e => decide (e.src_file ≠ p ∧ e.dst_file ≠ p)) from rfl]
    rw [List.mem_filter]
    simp [hs, hd]

theorem foldDelete_files (s : Store) (l : List String) (q : String) :
    alookup ((l.foldl deleteFile s).files) q =
      if q ∈ l then none else alookup s.files q := by
  induction l generalizing s with
  | nil => simp
  | cons p rest ih =>
      rw [List.foldl_cons, ih]
      by_cases hq : q ∈ rest
      · rw [if_pos hq, if_pos (List.mem_cons_of_mem p hq)]
      · rw [if_neg hq]
        rw [show (deleteFile s p).files =
            s.files.filter (fun kv => decide (kv.1 ≠ p)) from rfl,
          alookup_filter_ne]
        by_cases hqp : q = p
        · rw [if_pos hqp, if_pos (by simp [hqp])]
        · rw [if_neg hqp, if_neg (by simp [hqp, hq])]

theorem foldDelete_symbols (s : Store) (l : List String) (r : SymbolRow) :
    r ∈ (l.foldl deleteFile s).symbols ↔
      r ∈ s.symbols ∧ r.file_path ∉ l := by
  induction l generalizing s with
  | nil => simp
  | cons p rest ih =>
      rw [List.foldl_cons, ih]
      constructor
      · rintro ⟨h1, h2⟩
        obtain ⟨hmem, hne⟩ :=
          (mem_filter_row s.symbols (fun r => r.file_path) p r).mp h1
        exact ⟨hmem, by simp [hne, h2]⟩
      · rintro ⟨h1, h2⟩
        simp only [List.mem_cons, not_or] at h2
        exact ⟨(mem_filter_row s.symbols (fun r => r.file_path) p r).mpr
          ⟨h1, h2.1⟩, h2.2⟩

theorem foldDelete_imports (s : Store) (l : List String) (r : ImportRow) :
    r ∈ (l.foldl deleteFile s).imports ↔
      r ∈ s.imports ∧ r.file_path ∉ l := by
  induction l generalizing s with
  | nil => simp
  | cons p rest ih =>
      rw [List.foldl_cons, ih]
      constructor
      · rintro ⟨h1, h2⟩
        obtain ⟨hmem, hne⟩ :=
          (mem_filter_row s.imports (fun r => r.file_path) p r).mp h1
        exact ⟨hmem, by simp [hne, h2]⟩
      · rintro ⟨h1, h2⟩
        simp only [List.mem_cons, not_or] at h2
        exact ⟨(mem_filter_row s.imports (fun r => r.file_path) p r).mpr
          ⟨h1, h2.1⟩, h2.2⟩

theorem foldDelete_calls (s : Store) (l : List String) (r : CallRow) :
    r ∈ (l.foldl deleteFile s).calls ↔
      r ∈ s.calls ∧ r.file_path ∉ l := by
  induction l generalizing s with
  | nil => simp
  | cons p rest ih =>
      rw [List.foldl_cons, ih]
      constructor
      · rintro ⟨h1, h2⟩
        obtain ⟨hmem, hne⟩ :=
          (mem_filter_row s.calls (fun r => r.file_path) p r).mp h1
        exact ⟨hmem, by simp [hne, h2]⟩
      · rintro ⟨h1, h2⟩
        simp only [List.mem_cons, not_or] at h2
        exact ⟨(mem_filter_row s.calls (fun r => r.file_path) p r).mpr
          ⟨h1, h2.1⟩, h2.2⟩

theorem processFile_store_ne (astParse : AstParseFn)
    (hashFn : String → String) (previous : List (String × FileMeta))
    (acc : Store × RefreshStats) (f : FsFile) (q : String)
    (hq : q ≠ f.path) :
    alookup (processFile astParse hashFn previous acc f).1.files q =
        alookup acc.1.files q ∧
    (∀ r : SymbolRow, r.file_path = q →
      (r ∈ (processFile astParse hashFn previous acc f).1.symbols ↔
        r ∈ acc.1.symbols)) ∧
    (∀ r : ImportRow, r.file_path = q →
      (r ∈ (processFile astParse hashFn previous acc f).1.imports ↔
        r ∈ acc.1.imports)) ∧
    (∀ r : CallRow, r.file_path = q →
      (r ∈ (processFile astParse hashFn previous acc f).1.calls ↔
        r ∈ acc.1.calls)) := by
  by_cases hskip :
      skipCheck (alookup previous f.path) (hashFn f.content) f.mtime = true
  · have hunfold : (processFile astParse hashFn previous acc f).1 = acc.1 := by
      simp [processFile, hskip]
    rw [hunfold]
    exact ⟨rfl, fun r _ => Iff.rfl, fun r _ => Iff.rfl, fun r _ => Iff.rfl⟩
  · have hunfold : (processFile astParse hashFn previous acc f).1 =
        replaceFileAnalysis
          (upsertIndexedFile acc.1 f.path (hashFn f.content) f.mtime
            (parsePythonFile astParse f.content).2.2.2)
          f.path (parsePythonFile astParse f.content).1
          (parsePythonFile astParse f.content).2.1
          (parsePythonFile astParse f.content).2.2.1 := by
      rw [Bool.not_eq_true] at hskip
      simp [processFile, hskip]
    rw [hunfold]
    refine ⟨?_, ?_, ?_, ?_⟩
    · exact alookup_aupsert_ne acc.1.files f.path q _ (fun h => hq h.symm)
    · intro r hr
      constructor
      · intro hmem
        rcases List.mem_append.mp hmem with h1 | h1
        · exact (List.mem_filter.mp h1).1
        · obtain ⟨x, _, hx⟩ := List.mem_map.mp h1
          exfalso
          apply hq
          rw [← hr, ← hx]
      · intro hmem
        exact List.mem_append_left _
          (List.mem_filter.mpr ⟨hmem, by simp [hr, hq]⟩)
    · intro r hr
      constructor
      · intro hmem
        rcases List.mem_append.mp hmem with h1 | h1
        · exact (List.mem_filter.mp h1).1
        · obtain ⟨x, _, hx⟩ := List.mem_map.mp h1
          exfalso
          apply hq
          rw [← hr, ← hx]
      · intro hmem
        exact List.mem_append_left _
          (List.mem_filter.mpr ⟨hmem, by simp [hr, hq]⟩)
    · intro r hr
      constructor
      · intro hmem
        rcases List.mem_append.mp hmem with h1 | h1
        · exact (List.mem_filter.mp h1).1
        · obtain ⟨x, _, hx⟩ := List.mem_map.mp h1
          exfalso
          apply hq
          rw [← hr, ← hx]
      · intro hmem
        exact List.mem_append_left _
          (List.mem_filter.mpr ⟨hmem, by simp [hr, hq]⟩)

theorem foldProcess_store_ne (astParse : AstParseFn)
    (hashFn : String → String) (previous : List (String × FileMeta))
    (files : List FsFile) (acc : Store × RefreshStats) (q : String)
    (hq : ∀ f ∈ files, q ≠ f.path) :
    alookup ((files.foldl (processFile astParse hashFn previous) acc).1.files)
        q = alookup acc.1.files q ∧
    (∀ r : SymbolRow, r.file_path = q →
      (r ∈ (files.foldl (processFile astParse hashFn previous) acc).1.symbols ↔
        r ∈ acc.1.symbols)) ∧
    (∀ r : ImportRow, r.file_path = q →
      (r ∈ (files.foldl (processFile astParse hashFn previous) acc).1.imports ↔
        r ∈ acc.1.imports)) ∧
    (∀ r : CallRow, r.file_path = q →
      (r ∈ (files.foldl (processFile astParse hashFn previous) acc).1.calls ↔
        r ∈ acc.1.calls)) := by
  induction files generalizing acc with
  | nil => exact ⟨rfl, fun r _ => Iff.rfl, fun r _ => Iff.rfl, fun r _ => Iff.rfl⟩
  | cons f rest ih =>
      rw [List.foldl_cons]
      obtain ⟨ha, hb, hc, hd⟩ :=
        ih (processFile astParse hashFn previous acc f)
          (fun g hg => hq g (List.mem_cons_of_mem f hg))
      obtain ⟨ha2, hb2, hc2, hd2⟩ := processFile_store_ne astParse hashFn
        previous acc f q (hq f (List.mem_cons_self f rest))
      refine ⟨ha.trans ha2, ?_, ?_, ?_⟩
      · intro r hr
        exact (hb r hr).trans (hb2 r hr)
      · intro r hr
        exact (hc r hr).trans (hc2 r hr)
      · intro r hr
        exact (hd r hr).trans (hd2 r hr)

theorem resolve_mem_disk (disk : List String) (m d : String)
    (h : resolveImportToFile disk m = some d) : d ∈ disk := by
  unfold resolveImportToFile at h
  by_cases hm : m = ""
  · rw [if_pos hm] at h
    cases h
  · rw [if_neg hm] at h
    dsimp only at h
    by_cases h1 :
        (String.intercalate "/" (splitOnChar '.' m) ++ ".py") ∈ disk
    · rw [if_pos h1] at h
      cases h
      exact h1
    · rw [if_neg h1] at h
      by_cases h2 :
          (String.intercalate "/" (splitOnChar '.' m) ++ "/__init__.py") ∈ disk
      · rw [if_pos h2] at h
        cases h
        exact h2
      · rw [if_neg h2] at h
        cases h

theorem mem_symbolFilesByName (symbols : List SymbolRow) (n d : String)
    (h : d ∈ symbolFilesByName symbols n) :
    ∃ r ∈ symbols, r.file_path = d ∧ r.symbol_name = n := by
  unfold symbolFilesByName at h
  rw [List.mem_dedup] at h
  obtain ⟨r, hr, hrd⟩ := List.mem_map.mp h
  obtain ⟨hmem, hname⟩ := List.mem_filter.mp hr
  exact ⟨r, hmem, hrd, by simpa using hname⟩

theorem insertIgnoreEdges_subset (acc l : List GraphEdge) (e : GraphEdge)
    (h : e ∈ insertIgnoreEdges acc l) : e ∈ acc ∨ e ∈ l := by
  induction l generalizing acc with
  | nil =>
      left
      simpa [insertIgnoreEdges] using h
  | cons x rest ih =>
      rw [insertIgnoreEdges] at h
      by_cases hc : (acc.any (fun e2 => e2.src_file == x.src_file &&
          e2.dst_file == x.dst_file && e2.edge_type == x.edge_type)) = true
      · rw [if_pos hc] at h
        rcases ih acc h with h1 | h1
        · exact Or.inl h1
        · exact Or.inr (List.mem_cons_of_mem x h1)
      · rw [if_neg hc] at h
        rcases ih (acc ++ [x]) h with h1 | h1
        · rcases List.mem_append.mp h1 with h2 | h2
          · exact Or.inl h2
          · rcases List.mem_cons.mp h2 with h3 | h3
            · exact Or.inr (h3 ▸ List.mem_cons_self x rest)
            · cases h3
        · exact Or.inr (List.mem_cons_of_mem x h1)

theorem mem_rebuildEdges (disk : List String) (s : Store) (e : GraphEdge)
    (h : e ∈ rebuildEdges disk s) :
    (∃ row ∈ s.imports, ∃ dst,
      resolveImportToFile disk row.module_name = some dst ∧
      dst ≠ row.file_path ∧ e = ⟨row.file_path, dst, "import", 1⟩) ∨
    (∃ row ∈ s.calls, ∃ dst,
      dst ∈ symbolFilesByName s.symbols row.callee_name ∧
      dst ≠ row.file_path ∧ e = ⟨row.file_path, dst, "call", 0.7⟩) := by
  unfold rebuildEdges at h
  dsimp only at h
  have h2 := (List.Perm.mem_iff (List.perm_insertionSort edgeLe _)).mp h
  rw [List.mem_dedup, List.mem_append] at h2
  rcases h2 with h3 | h3
  · left
    obtain ⟨row, hrow, hmap⟩ := List.mem_filterMap.mp h3
    cases hres : resolveImportToFile disk row.module_name with
    | none =>
        rw [hres] at hmap
        cases hmap
    | some dst =>
        rw [hres] at hmap
        dsimp only at hmap
        by_cases hne : dst ≠ row.file_path
        · rw [if_pos hne] at hmap
          cases hmap
          exact ⟨row, hrow, dst, hres, hne, rfl⟩
        · rw [if_neg hne] at hmap
          cases hmap
  · right
    rw [List.mem_flatten] at h3
    obtain ⟨l2, hl2, hel⟩ := h3
    obtain ⟨row, hrow, hl2e⟩ := List.mem_map.mp hl2
    rw [← hl2e] at hel
    obtain ⟨dst, hdst, hde⟩ := List.mem_map.mp hel
    obtain ⟨hdmem, hdne⟩ := List.mem_filter.mp hdst
    exact ⟨row, hrow, dst, hdmem, by simpa using hdne, hde.symm⟩

/-- Store well-formedness: every symbol/import/call row's owner has an
`indexed_files` row.  The store maintains it: facts are written only by
`replace_file_analysis` right after the `upsert_indexed_file` of the same
path, and `delete_file` removes facts and metadata together. -/
def StoreWF (s : Store) : Prop :=
  (∀ r ∈ s.symbols, (alookup s.files r.file_path).isSome) ∧
  (∀ r ∈ s.imports, (alookup s.files r.file_path).isSome) ∧
  (∀ r ∈ s.calls, (alookup s.files r.file_path).isSome)

theorem iterPythonFiles_subset (fs : List FsFile) (f : FsFile)
    (h : f ∈ iterPythonFiles fs) : f ∈ fs := by
  unfold iterPythonFiles at h
  have h2 := (List.Perm.mem_iff (List.perm_insertionSort _ _)).mp h
  exact (List.mem_filter.mp h2).1

theorem alookup_mem_keys {β : Type} (l : List (String × β)) (k : String)
    (h : (alookup l k).isSome) : k ∈ l.map Prod.fst := by
  induction l with
  | nil => simp [alookup] at h
  | cons hd tl ih =>
      obtain ⟨k2, v⟩ := hd
      rw [alookup_cons] at h
      by_cases hk : k2 = k
      · simp [hk]
      · rw [if_neg hk] at h
        exact List.mem_cons_of_mem _ (ih h)

/-- The rows with owner `p` present after the deletion pass and the
re-parse loop of a refresh over a filesystem not containing `p`: none, in
any table, for a well-formed starting store. -/
theorem refreshProcessed_no_p (astParse : AstParseFn)
    (hashFn : String → String) (fs : List FsFile) (s0 : Store) (p : String)
    (hwf : StoreWF s0) (hfs : ∀ f ∈ fs, f.path ≠ p) :
    alookup (refreshProcessed astParse hashFn fs s0).1.files p = none ∧
    (∀ r ∈ (refreshProcessed astParse hashFn fs s0).1.symbols,
      r.file_path ≠ p) ∧
    (∀ r ∈ (refreshProcessed astParse hashFn fs s0).1.imports,
      r.file_path ≠ p) ∧
    (∀ r ∈ (refreshProcessed astParse hashFn fs s0).1.calls,
      r.file_path ≠ p) := by
  have hsub : ∀ f ∈ iterPythonFiles fs, p ≠ f.path := fun f hf he =>
    hfs f (iterPythonFiles_subset fs f hf) he.symm
  have hdel : (alookup s0.files p).isSome → p ∈ refreshDeletions fs s0 := by
    intro hsome
    rw [refreshDeletions, mem_sortedDedup, List.mem_filter]
    refine ⟨alookup_mem_keys s0.files p hsome, ?_⟩
    rw [decide_eq_true_eq]
    intro hmem
    obtain ⟨f, hf, hfp⟩ := List.mem_map.mp hmem
    exact hsub f hf hfp.symm
  obtain ⟨hfil, hsym, himp, hcal⟩ := foldProcess_store_ne astParse hashFn
    s0.files (iterPythonFiles fs)
    ((refreshDeletions fs s0).foldl deleteFile s0,
      ⟨(iterPythonFiles fs).length, 0, 0, (refreshDeletions fs s0).length, 0⟩)
    p hsub
  have hfiles1 :
      alookup ((refreshDeletions fs s0).foldl deleteFile s0).files p = none := by
    rw [foldDelete_files]
    by_cases hin : p ∈ refreshDeletions fs s0
    · rw [if_pos hin]
    · rw [if_neg hin]
      cases hx : alookup s0.files p with
      | none => rfl
      | some v =>
          exact absurd (hdel (by rw [hx]; rfl)) hin
  refine ⟨?_, ?_, ?_, ?_⟩
  · exact (hfil.trans hfiles1)
  · intro r hr
    intro hrp
    have h1 := (hsym r hrp).mp hr
    obtain ⟨h2, h3⟩ := (foldDelete_symbols s0 (refreshDeletions fs s0) r).mp h1
    exact h3 (hrp ▸ hdel (hrp ▸ hwf.1 r h2))
  · intro r hr
    intro hrp
    have h1 := (himp r hrp).mp hr
    obtain ⟨h2, h3⟩ := (foldDelete_imports s0 (refreshDeletions fs s0) r).mp h1
    exact h3 (hrp ▸ hdel (hrp ▸ hwf.2.1 r h2))
  · intro r hr
    intro hrp
    have h1 := (hcal r hrp).mp hr
    obtain ⟨h2, h3⟩ := (foldDelete_calls s0 (refreshDeletions fs s0) r).mp h1
    exact h3 (hrp ▸ hdel (hrp ▸ hwf.2.2 r h2))

/-- C5: `delete_file(path)` leaves no IndexedFile, Symbol, RawImport or
RawCall row for `path` and no edge touching it, while every other file's
rows are untouched; and a `refresh_index` over a filesystem from which
`path` has disappeared (starting from a store whose fact rows all have
owners) leaves no row of any kind for `path` — the deletion pass removes
its rows and neither the re-parse loop nor the full edge rebuild
reintroduces any. -/
theorem delete_file_propagation (s : Store) (p : String) :
    (alookup (deleteFile s p).files p = none ∧
      (∀ r ∈ (deleteFile s p).symbols, r.file_path ≠ p) ∧
      (∀ r ∈ (deleteFile s p).imports, r.file_path ≠ p) ∧
      (∀ r ∈ (deleteFile s p).calls, r.file_path ≠ p) ∧
      (∀ e ∈ (deleteFile s p).edges, e.src_file ≠ p ∧ e.dst_file ≠ p)) ∧
    ((∀ q, q ≠ p → alookup (deleteFile s p).files q = alookup s.files q) ∧
      (∀ r : SymbolRow, r.file_path ≠ p →
        (r ∈ (deleteFile s p).symbols ↔ r ∈ s.symbols)) ∧
      (∀ r : ImportRow, r.file_path ≠ p →
        (r ∈ (deleteFile s p).imports ↔ r ∈ s.imports)) ∧
      (∀ r : CallRow, r.file_path ≠ p →
        (r ∈ (deleteFile s p).calls ↔ r ∈ s.calls)) ∧
      (∀ e : GraphEdge, e.src_file ≠ p → e.dst_file ≠ p →
        (e ∈ (deleteFile s p).edges ↔ e ∈ s.edges))) ∧
    (∀ (astParse : AstParseFn) (hashFn : String → String) (fs : List FsFile)
        (s0 : Store), StoreWF s0 → (∀ f ∈ fs, f.path ≠ p) →
      alookup (refreshIndex astParse hashFn fs s0).1.files p = none ∧
      (∀ r ∈ (refreshIndex astParse hashFn fs s0).1.symbols,
        r.file_path ≠ p) ∧
      (∀ r ∈ (refreshIndex astParse hashFn fs s0).1.imports,
        r.file_path ≠ p) ∧
      (∀ r ∈ (refreshIndex astParse hashFn fs s0).1.calls,
        r.file_path ≠ p) ∧
      (∀ e ∈ (refreshIndex astParse hashFn fs s0).1.edges,
        e.src_file ≠ p ∧ e.dst_file ≠ p)) := by
  obtain ⟨d1, d2, d3, d4, d5, d6, d7, d8, d9, d10⟩ := deleteFile_spec s p
  refine ⟨⟨d1, d2, d3, d4, d5⟩, ⟨d6, d7, d8, d9, d10⟩, ?_⟩
  intro astParse hashFn fs s0 hwf hfs
  obtain ⟨hfil, hsym, himp, hcal⟩ :=
    refreshProcessed_no_p astParse hashFn fs s0 p hwf hfs
  have hstep : (refreshIndex astParse hashFn fs s0).1.files =
      (refreshProcessed astParse hashFn fs s0).1.files := rfl
  have hstepS : (refreshIndex astParse hashFn fs s0).1.symbols =
      (refreshProcessed astParse hashFn fs s0).1.symbols := rfl
  have hstepI : (refreshIndex astParse hashFn fs s0).1.imports =
      (refreshProcessed astParse hashFn fs s0).1.imports := rfl
  have hstepC : (refreshIndex astParse hashFn fs s0).1.calls =
      (refreshProcessed astParse hashFn fs s0).1.calls := rfl
  refine ⟨hstep ▸ hfil, hstepS ▸ hsym, hstepI ▸ himp, hstepC ▸ hcal, ?_⟩
  intro e he
  have he2 : e ∈ insertIgnoreEdges []
      (rebuildEdges (fs.map (fun f => f.path))
        (refreshProcessed astParse hashFn fs s0).1) := he
  rcases insertIgnoreEdges_subset _ _ e he2 with h1 | h1
  · cases h1
  rcases mem_rebuildEdges _ _ e h1 with
    ⟨row, hrow, dst, hres, hne, hee⟩ | ⟨row, hrow, dst, hdst, hne, hee⟩
  · subst hee
    refine ⟨himp row hrow, ?_⟩
    have hd := resolve_mem_disk _ _ _ hres
    obtain ⟨f, hf, hfp⟩ := List.mem_map.mp hd
    intro hdp
    exact hfs f hf (hfp.trans hdp)
  · subst hee
    refine ⟨hcal row hrow, ?_⟩
    obtain ⟨r, hrmem, hrd, _⟩ := mem_symbolFilesByName _ _ _ hdst
    intro hdp
    exact hsym r hrmem (hrd.trans hdp)

theorem delete_file_propagation_witness :
    alookup (deleteFile exStore "a.py").files "a.py" = none :=
  (delete_file_propagation exStore "a.py").1.1

theorem aupsert_isSome {β : Type} (l : List (String × β)) (k q : String)
    (v : β) (h : (alookup l q).isSome) :
    (alookup (aupsert l k v) q).isSome := by
  by_cases hq : q = k
  · subst hq
    rw [alookup_aupsert_self]
    rfl
  · rw [alookup_aupsert_ne l k q v (fun he => hq he.symm)]
    exact h

theorem skipCheck_isSome (prev : Option FileMeta) (h : String) (m : ℚ)
    (hs : skipCheck prev h m = true) : prev.isSome := by
  cases prev with
  | none => simp [skipCheck] at hs
  | some p => rfl

theorem processFile_isSome_mono (astParse : AstParseFn)
    (hashFn : String → String) (previous : List (String × FileMeta))
    (acc : Store × RefreshStats) (f : FsFile) (q : String)
    (h : (alookup acc.1.files q).isSome) :
    (alookup (processFile astParse hashFn previous acc f).1.files q).isSome := by
  by_cases hskip :
      skipCheck (alookup previous f.path) (hashFn f.content) f.mtime = true
  · have hunf : (processFile astParse hashFn previous acc f).1 = acc.1 := by
      simp [processFile, hskip]
    rw [hunf]
    exact h
  · rw [Bool.not_eq_true] at hskip
    have hunf : (processFile astParse hashFn previous acc f).1.files =
        aupsert acc.1.files f.path
          ⟨hashFn f.content, f.mtime,
            (parsePythonFile astParse f.content).2.2.2⟩ := by
      simp [processFile, hskip, replaceFileAnalysis, upsertIndexedFile]
    rw [hunf]
    exact aupsert_isSome acc.1.files f.path q _ h

theorem foldProcess_isSome_mono (astParse : AstParseFn)
    (hashFn : String → String) (previous : List (String × FileMeta))
    (files : List FsFile) (acc : Store × RefreshStats) (q : String)
    (h : (alookup acc.1.files q).isSome) :
    (alookup ((files.foldl (processFile astParse hashFn previous) acc).1.files)
      q).isSome := by
  induction files generalizing acc with
  | nil => exact h
  | cons f rest ih =>
      rw [List.foldl_cons]
      exact ih (processFile astParse hashFn previous acc f)
        (processFile_isSome_mono astParse hashFn previous acc f q h)

/-- After the re-parse loop, every processed file's path has a metadata
row: a skipped file already had one (the skip test requires a matching
previous row, which the deletion pass spared because the path is current),
and a re-parsed file is upserted. -/
theorem foldProcess_current_isSome (astParse : AstParseFn)
    (hashFn : String → String) (previous : List (String × FileMeta))
    (files : List FsFile) (acc : Store × RefreshStats)
    (hstart : ∀ f ∈ files,
      skipCheck (alookup previous f.path) (hashFn f.content) f.mtime = true →
      (alookup acc.1.files f.path).isSome) :
    ∀ f ∈ files,
      (alookup ((files.foldl (processFile astParse hashFn previous) acc).1.files)
        f.path).isSome := by
  induction files generalizing acc with
  | nil => intro f hf; cases hf
  | cons g rest ih =>
      intro f hf
      rw [List.foldl_cons]
      rcases List.mem_cons.mp hf with hf1 | hf1
      · subst hf1
        apply foldProcess_isSome_mono
        by_cases hskip :
            skipCheck (alookup previous f.path) (hashFn f.content) f.mtime = true
        · have hunf : (processFile astParse hashFn previous acc f).1 = acc.1 := by
            simp [processFile, hskip]
          rw [hunf]
          exact hstart f (List.mem_cons_self f rest) hskip
        · rw [Bool.not_eq_true] at hskip
          have hunf : (processFile astParse hashFn previous acc f).1.files =
              aupsert acc.1.files f.path
                ⟨hashFn f.content, f.mtime,
                  (parsePythonFile astParse f.content).2.2.2⟩ := by
            simp [processFile, hskip, replaceFileAnalysis, upsertIndexedFile]
          rw [hunf, alookup_aupsert_self]
          rfl
      · refine ih (processFile astParse hashFn previous acc g) ?_ f hf1
        intro f2 hf2 hsk
        exact processFile_isSome_mono astParse hashFn previous acc g f2.path
          (hstart f2 (List.mem_cons_of_mem g hf2) hsk)

theorem processFile_preserves_WF (astParse : AstParseFn)
    (hashFn : String → String) (previous : List (String × FileMeta))
    (acc : Store × RefreshStats) (f : FsFile) (hwf : StoreWF acc.1) :
    StoreWF (processFile astParse hashFn previous acc f).1 := by
  by_cases hskip :
      skipCheck (alookup previous f.path) (hashFn f.content) f.mtime = true
  · have hunf : (processFile astParse hashFn previous acc f).1 = acc.1 := by
      simp [processFile, hskip]
    rw [hunf]
    exact hwf
  · rw [Bool.not_eq_true] at hskip
    have hunf : (processFile astParse hashFn previous acc f).1 =
        replaceFileAnalysis
          (upsertIndexedFile acc.1 f.path (hashFn f.content) f.mtime
            (parsePythonFile astParse f.content).2.2.2)
          f.path (parsePythonFile astParse f.content).1
          (parsePythonFile astParse f.content).2.1
          (parsePythonFile astParse f.content).2.2.1 := by
      simp [processFile, hskip]
    rw [hunf]
    have hfiles : ∀ q, (alookup acc.1.files q).isSome ∨ q = f.path →
        (alookup (replaceFileAnalysis
          (upsertIndexedFile acc.1 f.path (hashFn f.content) f.mtime
            (parsePythonFile astParse f.content).2.2.2) f.path
          (parsePythonFile astParse f.content).1
          (parsePythonFile astParse f.content).2.1
          (parsePythonFile astParse f.content).2.2.1).files
          q).isSome := by
      intro q hq
      show (alookup (aupsert acc.1.files f.path _) q).isSome
      rcases hq with hq | hq
      · exact aupsert_isSome _ _ _ _ hq
      · subst hq
        rw [alookup_aupsert_self]
        rfl
    refine ⟨?_, ?_, ?_⟩
    · intro r hr
      rcases List.mem_append.mp hr with h1 | h1
      · exact hfiles r.file_path (Or.inl (hwf.1 r (List.mem_filter.mp h1).1))
      · obtain ⟨x, _, hx⟩ := List.mem_map.mp h1
        exact hfiles r.file_path (Or.inr (by rw [← hx]))
    · intro r hr
      rcases List.mem_append.mp hr with h1 | h1
      · exact hfiles r.file_path (Or.inl (hwf.2.1 r (List.mem_filter.mp h1).1))
      · obtain ⟨x, _, hx⟩ := List.mem_map.mp h1
        exact hfiles r.file_path (Or.inr (by rw [← hx]))
    · intro r hr
      rcases List.mem_append.mp hr with h1 | h1
      · exact hfiles r.file_path (Or.inl (hwf.2.2 r (List.mem_filter.mp h1).1))
      · obtain ⟨x, _, hx⟩ := List.mem_map.mp h1
        exact hfiles r.file_path (Or.inr (by rw [← hx]))

theorem foldProcess_preserves_WF (astParse : AstParseFn)
    (hashFn : String → String) (previous : List (String × FileMeta))
    (files : List FsFile) (acc : Store × RefreshStats) (hwf : StoreWF acc.1) :
    StoreWF ((files.foldl (processFile astParse hashFn previous) acc).1) := by
  induction files generalizing acc with
  | nil => exact hwf
  | cons f rest ih =>
      rw [List.foldl_cons]
      exact ih (processFile astParse hashFn previous acc f)
        (processFile_preserves_WF astParse hashFn previous acc f hwf)

theorem foldDelete_preserves_WF (s : Store) (l : List String)
    (hwf : StoreWF s) : StoreWF (l.foldl deleteFile s) := by
  refine ⟨?_, ?_, ?_⟩
  · intro r hr
    obtain ⟨h1, h2⟩ := (foldDelete_symbols s l r).mp hr
    rw [foldDelete_files, if_neg h2]
    exact hwf.1 r h1
  · intro r hr
    obtain ⟨h1, h2⟩ := (foldDelete_imports s l r).mp hr
    rw [foldDelete_files, if_neg h2]
    exact hwf.2.1 r h1
  · intro r hr
    obtain ⟨h1, h2⟩ := (foldDelete_calls s l r).mp hr
    rw [foldDelete_files, if_neg h2]
    exact hwf.2.2 r h1

/-- C6 (amended): after the edge rebuild of every `refresh_index` from a
well-formed store, every edge's `src_file` has an IndexedFile row, and so
does every call edge's `dst_file`; an import edge's `dst_file` is a file
existing on disk, and it has an IndexedFile row whenever it is among the
enumerated files — but an import resolving to a file under an excluded
directory (for example `build/`) yields an edge whose destination has no
IndexedFile row. -/
theorem rebuilt_edges_endpoints (astParse : AstParseFn)
    (hashFn : String → String) (fs : List FsFile) (s0 : Store)
    (hwf : StoreWF s0) :
    ∀ e ∈ (refreshIndex astParse hashFn fs s0).1.edges,
      (alookup (refreshIndex astParse hashFn fs s0).1.files e.src_file).isSome ∧
      (e.edge_type = "call" →
        (alookup (refreshIndex astParse hashFn fs s0).1.files
          e.dst_file).isSome) ∧
      (e.edge_type = "import" →
        e.dst_file ∈ fs.map (fun f => f.path) ∧
        (e.dst_file ∈ (iterPythonFiles fs).map (fun f => f.path) →
          (alookup (refreshIndex astParse hashFn fs s0).1.files
            e.dst_file).isSome)) := by
  intro e he
  have hwf1 : StoreWF (refreshProcessed astParse hashFn fs s0).1 :=
    foldProcess_preserves_WF _ _ _ _ _ (foldDelete_preserves_WF s0 _ hwf)
  have hcur : ∀ f ∈ iterPythonFiles fs,
      (alookup (refreshProcessed astParse hashFn fs s0).1.files
        f.path).isSome := by
    apply foldProcess_current_isSome
    intro f hf hsk
    have hnotdel : f.path ∉ refreshDeletions fs s0 := by
      rw [refreshDeletions, mem_sortedDedup]
      intro hmem
      have h2 := (List.mem_filter.mp hmem).2
      rw [decide_eq_true_eq] at h2
      exact h2 (List.mem_map.mpr ⟨f, hf, rfl⟩)
    show (alookup ((refreshDeletions fs s0).foldl deleteFile s0).files
      f.path).isSome
    rw [foldDelete_files, if_neg hnotdel]
    exact skipCheck_isSome _ _ _ hsk
  have hfeq : (refreshIndex astParse hashFn fs s0).1.files =
      (refreshProcessed astParse hashFn fs s0).1.files := rfl
  have he2 : e ∈ insertIgnoreEdges []
      (rebuildEdges (fs.map (fun f => f.path))
        (refreshProcessed astParse hashFn fs s0).1) := he
  rcases insertIgnoreEdges_subset _ _ e he2 with h1 | h1
  · cases h1
  rcases mem_rebuildEdges _ _ e h1 with
    ⟨row, hrow, dst, hres, hne, hee⟩ | ⟨row, hrow, dst, hdst, hne, hee⟩
  · subst hee
    rw [hfeq]
    refine ⟨hwf1.2.1 row hrow, ?_, ?_⟩
    · intro habs
      exact absurd (show ("import" : String) = "call" from habs) (by decide)
    · intro _
      refine ⟨resolve_mem_disk _ _ _ hres, ?_⟩
      intro hmem
      obtain ⟨f, hf, hfp⟩ := List.mem_map.mp hmem
      have hs := hcur f hf
      rw [hfp] at hs
      exact hs
  · subst hee
    rw [hfeq]
    obtain ⟨r, hrmem, hrd, _⟩ := mem_symbolFilesByName _ _ _ hdst
    refine ⟨hwf1.2.2 row hrow, ?_, ?_⟩
    · intro _
      have hs := hwf1.1 r hrmem
      rw [hrd] at hs
      exact hs
    · intro habs
      exact absurd (show ("call" : String) = "import" from habs) (by decide)

/-- The empty starting store, for concrete runs. -/
def emptyStore : Store := ⟨[], [], [], [], []⟩

/-- A concrete `ast.parse` table for the concrete runs below: the one
source text used parses to a single plain import statement (exactly what
`ast.parse` produces for it), anything else to an empty module. -/
def cexAstParse : AstParseFn := fun src =>
  if src = "import build.mod" then Except.ok [PyNode.importNames ["build.mod"]]
  else Except.ok []

/-- A filesystem whose `a.py` imports a module living under the excluded
`build/` directory, which exists on disk. -/
def cexFs : List FsFile :=
  [⟨"a.py", "import build.mod", 1⟩, ⟨"build/mod.py", "", 1⟩]

/-- C6 counterexample: `a.py` imports `build.mod`, and `build/mod.py`
exists on disk but lies under the excluded `build/` directory, so it is
never indexed; the rebuild still resolves the import on disk and emits an
edge whose `dst_file` has no IndexedFile row — the claim as stated is
false. -/
theorem rebuilt_edges_excluded_dir_cex :
    (⟨"a.py", "build/mod.py", "import", 1⟩ : GraphEdge) ∈
        (refreshIndex cexAstParse (fun s => s) cexFs emptyStore).1.edges ∧
      alookup (refreshIndex cexAstParse (fun s => s) cexFs
        emptyStore).1.files "build/mod.py" = none := by
  constructor
  · rw [show (refreshIndex cexAstParse (fun s => s) cexFs
        emptyStore).1.edges =
        [⟨"a.py", "build/mod.py", "import", 1⟩] from rfl]
    exact List.mem_singleton_self _
  · rfl

theorem rebuilt_edges_endpoints_witness :
    (alookup
      (refreshIndex cexAstParse (fun s => s) cexFs emptyStore).1.files
      "a.py").isSome = true :=
  (rebuilt_edges_endpoints cexAstParse (fun s => s) cexFs emptyStore
    ⟨fun r hr => absurd hr (List.not_mem_nil r),
      fun r hr => absurd hr (List.not_mem_nil r),
      fun r hr => absurd hr (List.not_mem_nil r)⟩
    ⟨"a.py", "build/mod.py", "import", 1⟩
    (by
      rw [show (refreshIndex cexAstParse (fun s => s) cexFs
          emptyStore).1.edges =
          [⟨"a.py", "build/mod.py", "import", 1⟩] from rfl]
      exact List.mem_singleton_self _)).1

/-! ## Claim C4: refresh idempotence -/

theorem mem_keys_isSome {β : Type} (l : List (String × β)) (q : String)
    (h : q ∈ l.map Prod.fst) : (alookup l q).isSome := by
  induction l with
  | nil => simp at h
  | cons hd tl ih =>
      obtain ⟨k, v⟩ := hd
      rw [List.map_cons] at h
      rw [alookup_cons]
      by_cases hk : k = q
      · rw [if_pos hk]
        rfl
      · rw [if_neg hk]
        rcases List.mem_cons.mp h with h1 | h1
        · exact absurd h1.symm hk
        · exact ih h1

theorem skipCheck_elim (m : FileMeta) (h : String) (t : ℚ)
    (hs : skipCheck (some m) h t = true) :
    m.file_hash = h ∧ m.mtime = t ∧
      (m.parse_error = none ∨ m.parse_error = some "") := by
  simp only [skipCheck, Bool.and_eq_true, Bool.or_eq_true,
    decide_eq_true_eq] at hs
  exact ⟨hs.1.1, hs.1.2, hs.2⟩

theorem skipCheck_intro (m : FileMeta) (h : String) (t : ℚ)
    (h1 : m.file_hash = h) (h2 : m.mtime = t)
    (h3 : m.parse_error = none ∨ m.parse_error = some "") :
    skipCheck (some m) h t = true := by
  simp only [skipCheck, Bool.and_eq_true, Bool.or_eq_true,
    decide_eq_true_eq]
  exact ⟨⟨h1, h2⟩, h3⟩

theorem processFile_pe_mono (astParse : AstParseFn)
    (hashFn : String → String) (previous : List (String × FileMeta))
    (acc : Store × RefreshStats) (f : FsFile) :
    acc.2.parse_errors ≤
      (processFile astParse hashFn previous acc f).2.parse_errors := by
  by_cases hskip :
      skipCheck (alookup previous f.path) (hashFn f.content) f.mtime = true
  · simp [processFile, hskip]
  · rw [Bool.not_eq_true] at hskip
    simp [processFile, hskip]

theorem foldProcess_pe_mono (astParse : AstParseFn)
    (hashFn : String → String) (previous : List (String × FileMeta))
    (files : List FsFile) (acc : Store × RefreshStats) :
    acc.2.parse_errors ≤
      ((files.foldl (processFile astParse hashFn previous) acc).2.parse_errors) := by
  induction files generalizing acc with
  | nil => exact Nat.le_refl _
  | cons f rest ih =>
      rw [List.foldl_cons]
      exact Nat.le_trans (processFile_pe_mono astParse hashFn previous acc f)
        (ih (processFile astParse hashFn previous acc f))

theorem foldProcess_all_skip (astParse : AstParseFn)
    (hashFn : String → String) (previous : List (String × FileMeta))
    (files : List FsFile) (acc : Store × RefreshStats)
    (hall : ∀ f ∈ files,
      skipCheck (alookup previous f.path) (hashFn f.content) f.mtime = true) :
    files.foldl (processFile astParse hashFn previous) acc =
      (acc.1, { acc.2 with
        files_skipped := acc.2.files_skipped + files.length }) := by
  induction files generalizing acc with
  | nil =>
      simp only [List.foldl_nil, List.length_nil, Nat.add_zero]
  | cons f rest ih =>
      rw [List.foldl_cons]
      have hskip := hall f (List.mem_cons_self f rest)
      have hstep : processFile astParse hashFn previous acc f =
          (acc.1, { acc.2 with
            files_skipped := acc.2.files_skipped + 1 }) := by
        simp [processFile, hskip]
      rw [hstep, ih _ (fun g hg => hall g (List.mem_cons_of_mem f hg))]
      simp only [List.length_cons]
      rw [Nat.add_assoc, Nat.add_comm 1 rest.length]

theorem foldProcess_keys_subset (astParse : AstParseFn)
    (hashFn : String → String) (previous : List (String × FileMeta))
    (files : List FsFile) (acc : Store × RefreshStats) (q : String)
    (h : (alookup ((files.foldl (processFile astParse hashFn previous)
      acc).1.files) q).isSome) :
    (alookup acc.1.files q).isSome ∨ q ∈ files.map (fun f => f.path) := by
  induction files generalizing acc with
  | nil => exact Or.inl h
  | cons f rest ih =>
      rw [List.foldl_cons] at h
      rcases ih (processFile astParse hashFn previous acc f) h with h1 | h1
      · by_cases hskip : skipCheck (alookup previous f.path)
            (hashFn f.content) f.mtime = true
        · have hunf : (processFile astParse hashFn previous acc f).1 = acc.1 := by
            simp [processFile, hskip]
          rw [hunf] at h1
          exact Or.inl h1
        · rw [Bool.not_eq_true] at hskip
          have hunf : (processFile astParse hashFn previous acc f).1.files =
              aupsert acc.1.files f.path
                ⟨hashFn f.content, f.mtime,
                  (parsePythonFile astParse f.content).2.2.2⟩ := by
            simp [processFile, hskip, replaceFileAnalysis, upsertIndexedFile]
          rw [hunf] at h1
          rcases aupsert_keys_subset acc.1.files f.path q _ h1 with h2 | h2
          · exact Or.inl h2
          · exact Or.inr (by simp [h2])
      · exact Or.inr (by simp [h1])

/-- What the re-parse loop leaves at a processed file's key, provided the
enumerated paths are distinct (a filesystem guarantee, and how the Python
`current_map` dict iterates): either the file was skipped and its entry is
whatever the fold started with, or it was re-parsed and its entry holds
the fresh hash, mtime and parse outcome — and a failed parse strictly
increases the final `parse_errors` counter. -/
theorem foldProcess_final_meta (astParse : AstParseFn)
    (hashFn : String → String) (previous : List (String × FileMeta))
    (files : List FsFile) (acc : Store × RefreshStats) (f : FsFile)
    (hf : f ∈ files) (hnodup : (files.map (fun g => g.path)).Nodup) :
    (skipCheck (alookup previous f.path) (hashFn f.content) f.mtime = true ∧
      alookup ((files.foldl (processFile astParse hashFn previous)
        acc).1.files) f.path = alookup acc.1.files f.path) ∨
    (skipCheck (alookup previous f.path) (hashFn f.content) f.mtime = false ∧
      alookup ((files.foldl (processFile astParse hashFn previous)
        acc).1.files) f.path =
        some ⟨hashFn f.content, f.mtime,
          (parsePythonFile astParse f.content).2.2.2⟩ ∧
      ((parsePythonFile astParse f.content).2.2.2.isSome →
        acc.2.parse_errors <
          ((files.foldl (processFile astParse hashFn previous)
            acc).2.parse_errors))) := by
  induction files generalizing acc with
  | nil => cases hf
  | cons g rest ih =>
      rw [List.map_cons, List.nodup_cons] at hnodup
      obtain ⟨hgnot, hrest⟩ := hnodup
      rw [List.foldl_cons]
      rcases List.mem_cons.mp hf with hf1 | hf1
      · subst hf1
        have hne : ∀ h ∈ rest, f.path ≠ h.path := by
          intro h hh he
          exact hgnot (he ▸ List.mem_map.mpr ⟨h, hh, rfl⟩)
        obtain ⟨hfil, _, _, _⟩ := foldProcess_store_ne astParse hashFn
          previous rest (processFile astParse hashFn previous acc f)
          f.path hne
        by_cases hskip : skipCheck (alookup previous f.path)
            (hashFn f.content) f.mtime = true
        · left
          refine ⟨hskip, ?_⟩
          rw [hfil]
          have hunf : (processFile astParse hashFn previous acc f).1 = acc.1 := by
            simp [processFile, hskip]
          rw [hunf]
        · rw [Bool.not_eq_true] at hskip
          right
          refine ⟨hskip, ?_, ?_⟩
          · rw [hfil]
            have hunf : (processFile astParse hashFn previous acc f).1.files =
                aupsert acc.1.files f.path
                  ⟨hashFn f.content, f.mtime,
                    (parsePythonFile astParse f.content).2.2.2⟩ := by
              simp [processFile, hskip, replaceFileAnalysis, upsertIndexedFile]
            rw [hunf, alookup_aupsert_self]
          · intro hperr
            have hstep : (processFile astParse hashFn previous acc f).2.parse_errors =
                acc.2.parse_errors + 1 := by
              simp [processFile, hskip, hperr]
            have hmono := foldProcess_pe_mono astParse hashFn previous rest
              (processFile astParse hashFn previous acc f)
            omega
      · have hgne : f.path ≠ g.path := by
          intro he
          exact hgnot (he ▸ List.mem_map.mpr ⟨f, hf1, rfl⟩)
        rcases ih (processFile astParse hashFn previous acc g) hf1 hrest with
          ⟨h1, h2⟩ | ⟨h1, h2, h3⟩
        · left
          refine ⟨h1, ?_⟩
          rw [h2]
          exact (processFile_store_ne astParse hashFn previous acc g f.path
            hgne).1
        · right
          refine ⟨h1, h2, ?_⟩
          intro hperr
          exact Nat.lt_of_le_of_lt
            (processFile_pe_mono astParse hashFn previous acc g) (h3 hperr)

/-- C4 (amended): refresh is idempotent for cleanly parsed trees.  When
the first refresh reports `parse_errors = 0` and the enumerated paths are
distinct (a filesystem guarantee), a second refresh over the unchanged
filesystem re-indexes nothing and skips every scanned file. -/
theorem refresh_idempotent_when_clean (astParse : AstParseFn)
    (hashFn : String → String) (fs : List FsFile) (s0 : Store)
    (hnodup : ((iterPythonFiles fs).map (fun f => f.path)).Nodup)
    (hclean : (refreshIndex astParse hashFn fs s0).2.parse_errors = 0) :
    (refreshIndex astParse hashFn fs
      (refreshIndex astParse hashFn fs s0).1).2.files_indexed = 0 ∧
    (refreshIndex astParse hashFn fs
      (refreshIndex astParse hashFn fs s0).1).2.files_skipped =
      (refreshIndex astParse hashFn fs s0).2.files_scanned := by
  have hfiles_eq : (refreshIndex astParse hashFn fs s0).1.files =
      (refreshProcessed astParse hashFn fs s0).1.files := rfl
  have hK1 : ∀ q,
      (alookup (refreshIndex astParse hashFn fs s0).1.files q).isSome →
      q ∈ (iterPythonFiles fs).map (fun f => f.path) := by
    intro q hq
    rw [hfiles_eq] at hq
    rcases foldProcess_keys_subset astParse hashFn s0.files
      (iterPythonFiles fs) _ q hq with h1 | h1
    · rw [show (((refreshDeletions fs s0).foldl deleteFile s0,
          (⟨(iterPythonFiles fs).length, 0, 0,
            (refreshDeletions fs s0).length, 0⟩ : RefreshStats)) :
            Store × RefreshStats).1 =
          (refreshDeletions fs s0).foldl deleteFile s0 from rfl] at h1
      rw [foldDelete_files] at h1
      by_cases hdel : q ∈ refreshDeletions fs s0
      · rw [if_pos hdel] at h1
        simp at h1
      · rw [if_neg hdel] at h1
        by_contra hq2
        apply hdel
        rw [refreshDeletions, mem_sortedDedup, List.mem_filter]
        refine ⟨alookup_mem_keys s0.files q h1, ?_⟩
        rw [decide_eq_true_eq]
        exact hq2
    · exact h1
  have hK2 : ∀ f ∈ iterPythonFiles fs,
      ∃ m, alookup (refreshIndex astParse hashFn fs s0).1.files f.path =
          some m ∧
        skipCheck (some m) (hashFn f.content) f.mtime = true := by
    intro f hf
    have hnotdel : f.path ∉ refreshDeletions fs s0 := by
      rw [refreshDeletions, mem_sortedDedup]
      intro hmem
      have h2 := (List.mem_filter.mp hmem).2
      rw [decide_eq_true_eq] at h2
      exact h2 (List.mem_map.mpr ⟨f, hf, rfl⟩)
    have hs1 : alookup ((refreshDeletions fs s0).foldl deleteFile s0).files
        f.path = alookup s0.files f.path := by
      rw [foldDelete_files, if_neg hnotdel]
    rcases foldProcess_final_meta astParse hashFn s0.files
      (iterPythonFiles fs)
      ((refreshDeletions fs s0).foldl deleteFile s0,
        ⟨(iterPythonFiles fs).length, 0, 0,
          (refreshDeletions fs s0).length, 0⟩) f hf hnodup with
      ⟨hsk, heq⟩ | ⟨hsk, heq, hpe⟩
    · cases hp : alookup s0.files f.path with
      | none =>
          rw [hp] at hsk
          simp [skipCheck] at hsk
      | some m =>
          refine ⟨m, ?_, ?_⟩
          · rw [hfiles_eq]
            show alookup ((iterPythonFiles fs).foldl
              (processFile astParse hashFn s0.files)
              ((refreshDeletions fs s0).foldl deleteFile s0,
                ⟨(iterPythonFiles fs).length, 0, 0,
                  (refreshDeletions fs s0).length, 0⟩)).1.files f.path =
              some m
            rw [heq]
            show alookup ((refreshDeletions fs s0).foldl deleteFile s0).files
              f.path = some m
            rw [hs1, hp]
          · rw [hp] at hsk
            exact hsk
    · have hperr : (parsePythonFile astParse f.content).2.2.2 = none := by
        cases hpp : (parsePythonFile astParse f.content).2.2.2 with
        | none => rfl
        | some e =>
            exfalso
            have hlt := hpe (by rw [hpp]; rfl)
            have hstats : (refreshIndex astParse hashFn fs s0).2.parse_errors =
                ((iterPythonFiles fs).foldl
                  (processFile astParse hashFn s0.files)
                  ((refreshDeletions fs s0).foldl deleteFile s0,
                    ⟨(iterPythonFiles fs).length, 0, 0,
                      (refreshDeletions fs s0).length, 0⟩)).2.parse_errors :=
              rfl
            dsimp only at hlt
            omega
      refine ⟨⟨hashFn f.content, f.mtime, none⟩, ?_, ?_⟩
      · rw [hfiles_eq]
        show alookup ((iterPythonFiles fs).foldl
          (processFile astParse hashFn s0.files)
          ((refreshDeletions fs s0).foldl deleteFile s0,
            ⟨(iterPythonFiles fs).length, 0, 0,
              (refreshDeletions fs s0).length, 0⟩)).1.files f.path =
          some ⟨hashFn f.content, f.mtime, none⟩
        rw [heq, hperr]
      · exact skipCheck_intro _ _ _ rfl rfl (Or.inl rfl)
  have hdel2 : refreshDeletions fs (refreshIndex astParse hashFn fs s0).1 =
      [] := by
    rw [refreshDeletions]
    have hfil : (((refreshIndex astParse hashFn fs s0).1.files.map
        Prod.fst).filter (fun p => decide
          (p ∉ (iterPythonFiles fs).map (fun f => f.path)))) = [] := by
      rw [List.filter_eq_nil_iff]
      intro a ha
      rw [decide_eq_true_eq, not_not]
      exact hK1 a (mem_keys_isSome _ a ha)
    rw [hfil]
    rfl
  have hall : ∀ f ∈ iterPythonFiles fs,
      skipCheck (alookup (refreshIndex astParse hashFn fs s0).1.files f.path)
        (hashFn f.content) f.mtime = true := by
    intro f hf
    obtain ⟨m, hm, hsk⟩ := hK2 f hf
    rw [hm]
    exact hsk
  have hsecond : (refreshIndex astParse hashFn fs
      (refreshIndex astParse hashFn fs s0).1).2 =
      ⟨(iterPythonFiles fs).length, 0, 0 + (iterPythonFiles fs).length,
        0, 0⟩ := by
    have h1 : (refreshIndex astParse hashFn fs
        (refreshIndex astParse hashFn fs s0).1).2 =
        (refreshProcessed astParse hashFn fs
          (refreshIndex astParse hashFn fs s0).1).2 := rfl
    rw [h1, refreshProcessed, hdel2]
    rw [show (([] : List String).foldl deleteFile
        (refreshIndex astParse hashFn fs s0).1) =
        (refreshIndex astParse hashFn fs s0).1 from rfl]
    rw [foldProcess_all_skip astParse hashFn
      (refreshIndex astParse hashFn fs s0).1.files (iterPythonFiles fs)
      ((refreshIndex astParse hashFn fs s0).1,
        ⟨(iterPythonFiles fs).length, 0, 0, ([] : List String).length, 0⟩)
      hall]
    rfl
  have hscanned : (refreshIndex astParse hashFn fs s0).2.files_scanned =
      (iterPythonFiles fs).length :=
    (refresh_counts astParse hashFn fs s0).2
  rw [hsecond, hscanned]
  exact ⟨rfl, Nat.zero_add _⟩

/-- A source text whose parse fails; the message is the one CPython
reports for it. -/
def brokenAstParse : AstParseFn := fun src =>
  if src = "def (" then Except.error "invalid syntax (a.py, line 1)"
  else Except.ok []

/-- One file whose content does not parse. -/
def brokenFs : List FsFile := [⟨"a.py", "def (", 1⟩]

/-- C4 counterexample: with a single unchanged file whose parse failed,
the second `refresh_index` re-parses it (`should_reparse` fires on the
recorded `parse_error`), so `files_indexed = 1 ≠ 0` and
`files_skipped = 0 ≠ files_scanned = 1`: the claim as stated is false for
this unchanged file set. -/
theorem refresh_idempotence_cex :
    (refreshIndex brokenAstParse (fun s => s) brokenFs emptyStore).2 =
        ⟨1, 1, 0, 0, 1⟩ ∧
      (refreshIndex brokenAstParse (fun s => s) brokenFs
        (refreshIndex brokenAstParse (fun s => s) brokenFs
          emptyStore).1).2 = ⟨1, 1, 0, 0, 1⟩ := by
  exact ⟨rfl, rfl⟩

theorem refresh_idempotent_when_clean_witness :
    (refreshIndex cexAstParse (fun s => s) cexFs
      (refreshIndex cexAstParse (fun s => s) cexFs
        emptyStore).1).2.files_indexed = 0 ∧
    (refreshIndex cexAstParse (fun s => s) cexFs
      (refreshIndex cexAstParse (fun s => s) cexFs
        emptyStore).1).2.files_skipped =
      (refreshIndex cexAstParse (fun s => s) cexFs
        emptyStore).2.files_scanned :=
  refresh_idempotent_when_clean cexAstParse (fun s => s) cexFs emptyStore
    (by decide) rfl

/-! ## Claim C7: world-model merge and best-effort fallback -/

theorem strStartsWith_file (p : String) :
    strStartsWith ("file:" ++ p) "file:" = true := by
  obtain ⟨pd⟩ := p
  rfl

theorem strDrop_file (p : String) : strDrop ("file:" ++ p) 5 = p := by
  obtain ⟨pd⟩ := p
  rfl

/-- A successful first-match lookup exhibits a member of the list. -/
theorem mem_of_alookup {β : Type} (l : List (String × β)) (k : String)
    (v : β) (h : alookup l k = some v) : (k, v) ∈ l := by
  induction l with
  | nil => exact Option.noConfusion h
  | cons hd rest ih =>
      obtain ⟨k2, v2⟩ := hd
      rw [alookup_cons] at h
      by_cases hk : k2 = k
      · rw [if_pos hk] at h
        injection h with hv
        rw [hk, hv]
        exact List.mem_cons_self _ _
      · rw [if_neg hk] at h
        exact List.mem_cons_of_mem _ (ih h)

/-- Invariant of the merge loop before it touches `p`: the distance of `p`
is absent or already at least 1 (never 0, which the merge leaves alone). -/
def PredPre (p : String) (st : PredState) : Prop :=
  alookup st.distance p = none ∨
    ∃ d, alookup st.distance p = some d ∧ 1 ≤ d

/-- State after the merge loop has processed a consequence of strength `σ`
for `p`: distance forced to 1, `p` in the predicted set, and the
accumulated strength at least `σ`. -/
def PredPost (p : String) (σ : ℚ) (st : PredState) : Prop :=
  alookup st.distance p = some 1 ∧ p ∈ st.predictedSet ∧
    ∃ σf, alookup st.predictedStrength p = some σf ∧ σ ≤ σf

theorem applyConsequence_pre (ind : List String) (p : String)
    (st : PredState) (c : String × ℚ) (h : PredPre p st) :
    PredPre p (applyConsequence ind st c) := by
  unfold applyConsequence
  by_cases h1 : strStartsWith c.1 "file:" = true
  · rw [if_pos h1]
    dsimp only
    by_cases h2 : strDrop c.1 5 ∈ ind
    · rw [if_pos h2]
      by_cases hq : strDrop c.1 5 = p
      · rw [hq]
        cases hd : alookup st.distance p with
        | none =>
            dsimp only
            exact Or.inr ⟨1, alookup_aupsert_self _ _ _, le_refl 1⟩
        | some d =>
            dsimp only
            by_cases hlt : 1 < d
            · rw [if_pos hlt]
              exact Or.inr ⟨1, alookup_aupsert_self _ _ _, le_refl 1⟩
            · rw [if_neg hlt]
              exact h
      · cases hd : alookup st.distance (strDrop c.1 5) with
        | none =>
            dsimp only
            rcases h with hnone | ⟨d2, hd2, hge⟩
            · exact Or.inl ((alookup_aupsert_ne _ _ _ _ hq).trans hnone)
            · exact Or.inr ⟨d2, (alookup_aupsert_ne _ _ _ _ hq).trans hd2, hge⟩
        | some d =>
            dsimp only
            by_cases hlt : 1 < d
            · rw [if_pos hlt]
              rcases h with hnone | ⟨d2, hd2, hge⟩
              · exact Or.inl ((alookup_aupsert_ne _ _ _ _ hq).trans hnone)
              · exact Or.inr
                  ⟨d2, (alookup_aupsert_ne _ _ _ _ hq).trans hd2, hge⟩
            · rw [if_neg hlt]
              exact h
    · rw [if_neg h2]
      exact h
  · rw [if_neg h1]
    exact h

theorem applyConsequence_post (ind : List String) (p : String) (σ : ℚ)
    (st : PredState) (c : String × ℚ) (h : PredPost p σ st) :
    PredPost p σ (applyConsequence ind st c) := by
  obtain ⟨hdist, hset, σf, hstr, hσ⟩ := h
  unfold applyConsequence
  by_cases h1 : strStartsWith c.1 "file:" = true
  · rw [if_pos h1]
    dsimp only
    by_cases h2 : strDrop c.1 5 ∈ ind
    · rw [if_pos h2]
      have hps : p ∈ (if strDrop c.1 5 ∈ st.predictedSet then st.predictedSet
          else st.predictedSet ++ [strDrop c.1 5]) := by
        by_cases hm : strDrop c.1 5 ∈ st.predictedSet
        · rw [if_pos hm]; exact hset
        · rw [if_neg hm]; exact List.mem_append_left _ hset
      by_cases hq : strDrop c.1 5 = p
      · rw [hq] at hps ⊢
        rw [hdist]
        dsimp only
        rw [if_neg (by decide : ¬(1 : Nat) < 1)]
        refine ⟨hdist, hps,
          max c.2 ((alookup st.predictedStrength p).getD 0),
          alookup_aupsert_self _ _ _, ?_⟩
        rw [hstr]
        exact le_trans hσ (le_max_right _ _)
      · have hstr2 : alookup (aupsert st.predictedStrength (strDrop c.1 5)
            (max c.2 ((alookup st.predictedStrength
              (strDrop c.1 5)).getD 0))) p = some σf :=
          (alookup_aupsert_ne _ _ _ _ hq).trans hstr
        cases hd : alookup st.distance (strDrop c.1 5) with
        | none =>
            dsimp only
            exact ⟨(alookup_aupsert_ne _ _ _ _ hq).trans hdist, hps,
              σf, hstr2, hσ⟩
        | some d =>
            dsimp only
            by_cases hlt : 1 < d
            · rw [if_pos hlt]
              exact ⟨(alookup_aupsert_ne _ _ _ _ hq).trans hdist, hps,
                σf, hstr2, hσ⟩
            · rw [if_neg hlt]
              exact ⟨hdist, hps, σf, hstr2, hσ⟩
    · rw [if_neg h2]
      exact ⟨hdist, hset, σf, hstr, hσ⟩
  · rw [if_neg h1]
    exact ⟨hdist, hset, σf, hstr, hσ⟩

theorem applyConsequence_establish (ind : List String) (p : String) (σ : ℚ)
    (st : PredState) (hind : p ∈ ind) (hpre : PredPre p st) :
    PredPost p σ (applyConsequence ind st ("file:" ++ p, σ)) := by
  unfold applyConsequence
  dsimp only
  rw [if_pos (strStartsWith_file p)]
  rw [strDrop_file]
  rw [if_pos hind]
  have hps : p ∈ (if p ∈ st.predictedSet then st.predictedSet
      else st.predictedSet ++ [p]) := by
    by_cases hm : p ∈ st.predictedSet
    · rw [if_pos hm]; exact hm
    · rw [if_neg hm]
      exact List.mem_append_right _ (List.mem_singleton.mpr rfl)
  unfold PredPre at hpre
  rcases hpre with hnone | ⟨d, hd, hge⟩
  · rw [hnone]
    dsimp only
    exact ⟨alookup_aupsert_self _ _ _, hps,
      max σ ((alookup st.predictedStrength p).getD 0),
      alookup_aupsert_self _ _ _, le_max_left _ _⟩
  · rw [hd]
    dsimp only
    by_cases hlt : 1 < d
    · rw [if_pos hlt]
      exact ⟨alookup_aupsert_self _ _ _, hps,
        max σ ((alookup st.predictedStrength p).getD 0),
        alookup_aupsert_self _ _ _, le_max_left _ _⟩
    · rw [if_neg hlt]
      have hd1 : d = 1 := by omega
      exact ⟨hd1 ▸ hd, hps,
        max σ ((alookup st.predictedStrength p).getD 0),
        alookup_aupsert_self _ _ _, le_max_left _ _⟩

theorem foldConsequences_pre (ind : List String) (p : String)
    (cs : List (String × ℚ)) (st : PredState) (h : PredPre p st) :
    PredPre p (cs.foldl (applyConsequence ind) st) := by
  induction cs generalizing st h with
  | nil => exact h
  | cons c rest ih =>
      rw [List.foldl_cons]
      exact ih _ (applyConsequence_pre ind p st c h)

theorem foldConsequences_post (ind : List String) (p : String) (σ : ℚ)
    (cs : List (String × ℚ)) (st : PredState) (h : PredPost p σ st) :
    PredPost p σ (cs.foldl (applyConsequence ind) st) := by
  induction cs generalizing st h with
  | nil => exact h
  | cons c rest ih =>
      rw [List.foldl_cons]
      exact ih _ (applyConsequence_post ind p σ st c h)

theorem foldConsequences_establish (ind : List String) (p : String) (σ : ℚ)
    (cs : List (String × ℚ)) (st : PredState) (hind : p ∈ ind)
    (hpre : PredPre p st) (hc : ("file:" ++ p, σ) ∈ cs) :
    PredPost p σ (cs.foldl (applyConsequence ind) st) := by
  have haux : ∀ (l : List (String × ℚ)) (st2 : PredState),
      ("file:" ++ p, σ) ∈ l → PredPre p st2 →
      PredPost p σ (l.foldl (applyConsequence ind) st2) := by
    intro l
    induction l with
    | nil =>
        intro st2 hmem
        exact absurd hmem (List.not_mem_nil _)
    | cons c rest ih =>
        intro st2 hmem hpre2
        rw [List.foldl_cons]
        rcases List.mem_cons.mp hmem with heq | hrest
        · rw [← heq]
          exact foldConsequences_post ind p σ rest _
            (applyConsequence_establish ind p σ st2 hind hpre2)
        · exact ih _ hrest (applyConsequence_pre ind p st2 c hpre2)
  exact haux cs st hc hpre

theorem foldChanged_post (ind : List String) (w : OracleFn) (p : String)
    (σ : ℚ) (l : List String) (st : PredState) (h : PredPost p σ st) :
    PredPost p σ (l.foldl (fun acc fp =>
      (w ("file:" ++ fp)).foldl (applyConsequence ind) acc) st) := by
  induction l generalizing st h with
  | nil => exact h
  | cons a rest ih =>
      rw [List.foldl_cons]
      exact ih _ (foldConsequences_post ind p σ _ st h)

/-- Through the whole prediction-merge loop: a consequence of strength `σ`
for an indexed file `p`, predicted for some changed file, forces `p` to
distance 1, membership in the predicted set, and an accumulated strength
of at least `σ` — provided the static distance of `p` was absent or
already positive. -/
theorem applyPredictions_post (ind : List String) (w : OracleFn)
    (changed : List String) (dist : List (String × Nat)) (p fp : String)
    (σ : ℚ) (hind : p ∈ ind) (hfp : fp ∈ changed)
    (hc : ("file:" ++ p, σ) ∈ w ("file:" ++ fp))
    (hpre : alookup dist p = none ∨ ∃ d, alookup dist p = some d ∧ 1 ≤ d) :
    PredPost p σ (applyPredictions ind (some w) changed dist) := by
  unfold applyPredictions
  have haux : ∀ (l : List String) (st : PredState), fp ∈ l → PredPre p st →
      PredPost p σ (l.foldl (fun acc f =>
        (w ("file:" ++ f)).foldl (applyConsequence ind) acc) st) := by
    intro l
    induction l with
    | nil =>
        intro st hmem
        exact absurd hmem (List.not_mem_nil _)
    | cons a rest ih =>
        intro st hmem hpre2
        rw [List.foldl_cons]
        rcases List.mem_cons.mp hmem with heq | hrest
        · subst heq
          exact foldChanged_post ind w p σ rest _
            (foldConsequences_establish ind p σ (w ("file:" ++ fp)) st
              hind hpre2 hc)
        · exact ih _ hrest (foldConsequences_pre ind p _ st hpre2)
  exact haux changed ⟨dist, [], []⟩ hfp hpre

theorem classifyItem_world_model (sd : List (String × Nat))
    (pset : List String) (pstr : List (String × ℚ)) (p : String) (σf : ℚ)
    (hnone : alookup sd p = none) (hmem : p ∈ pset)
    (hstr : alookup pstr p = some σf) :
    classifyItem sd pset pstr (p, 1) =
      ⟨p, 1, "direct", max 0.85 (round3 σf), "world_model"⟩ := by
  unfold classifyItem
  dsimp only
  rw [if_neg (by decide : ¬(1 = 0))]
  have hng : ¬((alookup sd p).isSome = true ∧ p ∈ pset) := by
    intro hand
    rw [hnone] at hand
    exact Bool.noConfusion hand.1
  rw [if_neg hng]
  have hpos : p ∈ pset ∧ (alookup sd p).isNone = true := by
    refine ⟨hmem, ?_⟩
    rw [hnone]
    rfl
  rw [if_pos hpos]
  rw [hstr]
  rfl

theorem classifyItem_graph_world (sd : List (String × Nat))
    (pset : List String) (pstr : List (String × ℚ)) (p : String)
    (hsome : (alookup sd p).isSome = true) (hmem : p ∈ pset) :
    classifyItem sd pset pstr (p, 1) =
      ⟨p, 1, "direct", 0.85, "graph+world_model"⟩ := by
  unfold classifyItem
  dsimp only
  rw [if_neg (by decide : ¬(1 = 0))]
  rw [if_pos ⟨hsome, hmem⟩]
  rfl

/-- C7 (amended): the merge of the oracle's predictions into the impact
list.  When the oracle errors, the impacted list equals the pure-graph
(world-model-disabled) run and the error is flagged in the summary — the
call never fails.  A predicted known-indexed file not reached by graph
traversal enters at distance 1 with source `world_model`, but its
confidence is `max(0.85, round(strength, 3))` — floored at the
distance-1 base, not the raw predicted strength.  A predicted file the
graph reached at positive distance is re-pinned to distance 1 with source
`graph+world_model`, keeping the base confidence 0.85 — it is never
raised by the predicted strength. -/
theorem impact_world_model_merge (w : OracleFn) (msg : String) (s : Store)
    (changed_files : List String) (maxDepth : Nat) (p fp : String) (σ : ℚ)
    (hfp : fp ∈ normalizeChanged (s.files.map Prod.fst) changed_files)
    (hc : ("file:" ++ p, σ) ∈ w ("file:" ++ fp))
    (hind : p ∈ s.files.map Prod.fst) :
    ((impactForFiles (Except.error msg) true s changed_files
          maxDepth).impacted =
        (impactForFiles (Except.error msg) false s changed_files
          maxDepth).impacted ∧
      (impactForFiles (Except.error msg) true s changed_files
          maxDepth).world_model_error =
        some ("cognitive import failed: " ++ msg)) ∧
    (alookup (impactStaticDistance s changed_files maxDepth) p = none →
      ∃ σf, σ ≤ σf ∧
        (⟨p, 1, "direct", max 0.85 (round3 σf), "world_model"⟩ :
            ImpactEntry) ∈
          (impactForFiles (Except.ok w) true s changed_files
            maxDepth).impacted) ∧
    (∀ d, alookup (impactStaticDistance s changed_files maxDepth) p =
        some d → 1 ≤ d →
      (⟨p, 1, "direct", 0.85, "graph+world_model"⟩ : ImpactEntry) ∈
        (impactForFiles (Except.ok w) true s changed_files
          maxDepth).impacted) := by
  have hworld : (buildCognitiveWorld true (Except.ok w)).1 = some w := rfl
  have hpost : (alookup (impactStaticDistance s changed_files maxDepth) p =
        none ∨
      ∃ d, alookup (impactStaticDistance s changed_files maxDepth) p =
        some d ∧ 1 ≤ d) →
      PredPost p σ (impactPredState (Except.ok w) true s changed_files
        maxDepth) := by
    intro hpre
    unfold impactPredState
    rw [hworld]
    exact applyPredictions_post _ w _ _ p fp σ hind hfp hc hpre
  refine ⟨⟨rfl, rfl⟩, ?_, ?_⟩
  · intro hnone
    obtain ⟨hdist, hset, σf, hstr, hσ⟩ := hpost (Or.inl hnone)
    refine ⟨σf, hσ, ?_⟩
    rw [mem_impacted_iff]
    refine ⟨(p, 1), mem_of_alookup _ _ _ hdist, ?_⟩
    rw [classifyItem_world_model _ _ _ p σf hnone hset hstr]
  · intro d hd hd1
    obtain ⟨hdist, hset, _, _, _⟩ := hpost (Or.inr ⟨d, hd, hd1⟩)
    rw [mem_impacted_iff]
    refine ⟨(p, 1), mem_of_alookup _ _ _ hdist, ?_⟩
    rw [classifyItem_graph_world _ _ _ p (by rw [hd]; rfl) hset]

/-- A store with two indexed files and no edges, exercising the pure
world-model path of the impact analyzer. -/
def wmStore : Store :=
  ⟨[("a.py", ⟨"h", 1, none⟩), ("b.py", ⟨"h", 1, none⟩)], [], [], [], []⟩

/-- An oracle predicting `b.py` at strength 0.4 for changes to `a.py`. -/
def wmOracle : OracleFn := fun k =>
  if k = "file:a.py" then [("file:b.py", 0.4)] else []

/-- C7 counterexample: `b.py`, predicted at strength 0.4 and unreached by
the graph, enters the impact list with confidence
`max(0.85, round(0.4, 3)) = 0.85`, not the predicted strength 0.4: the
`world_model` branch floors the confidence at the distance-1 base. -/
theorem impact_world_model_strength_cex :
    (impactForFiles (Except.ok wmOracle) true wmStore ["a.py"] 8).impacted =
        [⟨"a.py", 0, "changed", 1, "changed"⟩,
          ⟨"b.py", 1, "direct", 0.85, "world_model"⟩] ∧
      (0.85 : ℚ) ≠ 0.4 ∧
      wmOracle "file:a.py" = [("file:b.py", 0.4)] := by
  have h1 : (impactForFiles (Except.ok wmOracle) true wmStore
      ["a.py"] 8).impacted =
      [⟨"a.py", 0, "changed", 1, "changed"⟩,
        ⟨"b.py", 1, "direct", max 0.85 (round3 (max 0.4 0)),
          "world_model"⟩] := rfl
  have h2 : max (0.4 : ℚ) 0 = 0.4 := max_eq_left (by norm_num)
  have h3 : round3 (0.4 : ℚ) = 0.4 := by
    have ha : (1000 : ℚ) * 0.4 = 400 := by norm_num
    have hb : roundHalfEven 400 = 400 := by
      unfold roundHalfEven
      norm_num
    rw [round3, ha, hb]
    norm_num
  have h4 : max (0.85 : ℚ) (0.4 : ℚ) = 0.85 := max_eq_left (by norm_num)
  refine ⟨?_, by norm_num, rfl⟩
  rw [h1, h2, h3, h4]

theorem impact_world_model_merge_witness :
    ((impactForFiles (Except.error "boom") true wmStore
          ["a.py"] 8).impacted =
        (impactForFiles (Except.error "boom") false wmStore
          ["a.py"] 8).impacted ∧
      (impactForFiles (Except.error "boom") true wmStore
          ["a.py"] 8).world_model_error =
        some ("cognitive import failed: " ++ "boom")) ∧
    (⟨"b.py", 1, "direct", 0.85, "graph+world_model"⟩ : ImpactEntry) ∈
      (impactForFiles (Except.ok wmOracle) true exStore ["a.py"] 8).impacted :=
  ⟨(impact_world_model_merge wmOracle "boom" wmStore ["a.py"] 8 "b.py"
      "a.py" 0.4 (by decide) (List.Mem.head _) (by decide)).1,
    (impact_world_model_merge wmOracle "boom" exStore ["a.py"] 8 "b.py"
      "a.py" 0.4 (by decide) (List.Mem.head _) (by decide)).2.2 1 rfl
      (by decide)⟩

end ElephantCoder
